import Mathlib

/-!
Verification of the history composition engine of `git-stitch` / `git-rip`
(repository `philz/git-mono`).

The development shallowly embeds the two Go programs:

* `git-stitch` (`init.go`, `main` of the stitch command): merges several
  remote refs into one synthetic composite commit, one top-level directory
  per remote, with a deterministic author/committer identity and timestamp.
* `git-rip` (`cmd/git-rip/main.go`): locates the composite base commit,
  resolves each component's original head, replays every composite commit
  after the base onto per-component branches, and publishes one branch per
  component at the end.

The external content-addressed object store (git itself) is modelled as a
record of read functions (`StitchRepo`, `RipStore`), matching the spec's
"Object Store Adapter" boundary: `rev-parse`, `ls-tree`, `rev-list`,
`diff-tree`, `show` become oracle functions of the repository state, which a
run never mutates (a run only writes fresh objects, keyed by content, and
creates branch refs; no read performed by either tool consults those).
Commit objects created by a run are represented by their content
(`StitchCommit`, `GCommit`); since the store is content addressed, equality
of content is equality of commit hash.
-/

set_option maxHeartbeats 1000000

deriving instance DecidableEq for Except

namespace GitMono

/-! ### String utilities

Go's `strings.SplitN(s, "/", 2)` and byte-wise lexicographic `sort.Strings`
are embedded as structurally recursive functions on `List Char` so that all
definitions evaluate by kernel reduction.  (Remote and directory names are
ASCII in this tool, where Go's byte order and code-point order coincide.) -/

/-- Split a character list at the first occurrence of `sep`; `none` when
`sep` does not occur.  Mirrors `strings.SplitN(s, sep, 2)` producing two
parts. -/
def splitFirst (sep : Char) : List Char → Option (List Char × List Char)
  | [] => none
  | c :: cs =>
    if c = sep then some ([], cs)
    else
      match splitFirst sep cs with
      | none => none
      | some (a, b) => some (c :: a, b)

/-- `strings.SplitN(s, "/", 2)` on strings: `some (head, rest)` when the
separator occurs, `none` otherwise (Go returns a one-element slice then). -/
def splitN2 (sep : Char) (s : String) : Option (String × String) :=
  match splitFirst sep s.data with
  | none => none
  | some (a, b) => some (⟨a⟩, ⟨b⟩)

/-- Lexicographic comparison of character lists by code point, the order Go's
`sort.Strings` uses on ASCII data. -/
def charsLe : List Char → List Char → Bool
  | [], _ => true
  | _ :: _, [] => false
  | a :: as, b :: bs => if a = b then charsLe as bs else decide (a.toNat < b.toNat)

/-- Lexicographic order on strings (the sort key of `sort.Strings`). -/
def strLe (a b : String) : Prop := charsLe a.data b.data = true

instance : DecidableRel strLe := fun a b => by
  unfold strLe; infer_instance

theorem charsLe_refl : ∀ as, charsLe as as = true
  | [] => rfl
  | a :: as => by simp [charsLe, charsLe_refl as]

theorem charsLe_total : ∀ as bs, charsLe as bs = true ∨ charsLe bs as = true
  | [], _ => Or.inl rfl
  | _ :: _, [] => Or.inr rfl
  | a :: as, b :: bs => by
    by_cases hab : a = b
    · subst hab
      simpa [charsLe] using charsLe_total as bs
    · have hn : a.toNat ≠ b.toNat := fun h =>
        hab (Char.ext_iff.mpr (UInt32.ext_iff.mpr h))
      rcases Nat.lt_or_ge a.toNat b.toNat with h | h
      · exact Or.inl (by simp [charsLe, hab, h])
      · have h' : b.toNat < a.toNat := Nat.lt_of_le_of_ne h (Ne.symm hn)
        exact Or.inr (by simp [charsLe, Ne.symm hab, h'])

theorem charsLe_antisymm : ∀ as bs, charsLe as bs = true → charsLe bs as = true → as = bs
  | [], [], _, _ => rfl
  | [], _ :: _, _, h => by simp [charsLe] at h
  | _ :: _, [], h, _ => by simp [charsLe] at h
  | a :: as, b :: bs, h₁, h₂ => by
    by_cases hab : a = b
    · subst hab
      simp only [charsLe, if_pos rfl] at h₁ h₂
      exact congrArg (a :: ·) (charsLe_antisymm as bs h₁ h₂)
    · simp only [charsLe, if_neg hab, decide_eq_true_eq] at h₁
      simp only [charsLe, if_neg (Ne.symm hab), decide_eq_true_eq] at h₂
      exact absurd h₂ (Nat.lt_asymm h₁)

theorem charsLe_trans : ∀ as bs cs, charsLe as bs = true → charsLe bs cs = true →
    charsLe as cs = true
  | [], _, _, _, _ => rfl
  | _ :: _, [], _, h, _ => by simp [charsLe] at h
  | _ :: _, _ :: _, [], _, h => by simp [charsLe] at h
  | a :: as, b :: bs, c :: cs, h₁, h₂ => by
    by_cases hab : a = b
    · subst hab
      by_cases hac : a = c
      · subst hac
        simp only [charsLe, if_pos rfl] at h₁ h₂ ⊢
        exact charsLe_trans as bs cs h₁ h₂
      · simpa [charsLe, hac] using (by simpa [charsLe, hac] using h₂ : _)
    · by_cases hbc : b = c
      · subst hbc
        simpa [charsLe, hab] using (by simpa [charsLe, hab] using h₁ : _)
      · simp only [charsLe, if_neg hab, decide_eq_true_eq] at h₁
        simp only [charsLe, if_neg hbc, decide_eq_true_eq] at h₂
        have hac : a.toNat < c.toNat := Nat.lt_trans h₁ h₂
        have : a ≠ c := fun h => by
          subst h; exact Nat.lt_irrefl _ hac
        simp [charsLe, this, hac]

instance : IsTotal String strLe := ⟨fun a b => charsLe_total a.data b.data⟩

instance : IsTrans String strLe := ⟨fun a b c => charsLe_trans a.data b.data c.data⟩

instance : IsAntisymm String strLe :=
  ⟨fun a b h₁ h₂ => by
    cases a; cases b
    exact congrArg String.mk (charsLe_antisymm _ _ h₁ h₂)⟩

instance : IsRefl String strLe := ⟨fun a => charsLe_refl a.data⟩

/-- Sort a list of strings lexicographically (Go's `sort.Strings`). -/
def sortStrings (l : List String) : List String := List.insertionSort strLe l

/-- `hasPre pat l` decides whether `pat` is a prefix of `l`. -/
def hasPre : List Char → List Char → Bool
  | [], _ => true
  | _ :: _, [] => false
  | p :: ps, c :: cs => p = c && hasPre ps cs

/-- `hasSub pat l` decides whether `pat` occurs as a contiguous sublist of
`l`; this is the matching semantics of `git log --grep` for a pattern with no
regular-expression metacharacters (the reserved marker has none). -/
def hasSub (pat : List Char) : List Char → Bool
  | [] => hasPre pat []
  | c :: cs => hasPre pat (c :: cs) || hasSub pat cs

theorem hasPre_iff : ∀ pat l : List Char, hasPre pat l = true ↔ pat <+: l
  | [], l => by simp [hasPre]
  | p :: ps, [] => by
    constructor
    · intro h
      simp [hasPre] at h
    · intro h
      exact absurd (List.prefix_nil.mp h) (by simp)
  | p :: ps, c :: cs => by
    simp only [hasPre, Bool.and_eq_true, decide_eq_true_eq, hasPre_iff ps cs,
      List.cons_prefix_cons]

theorem hasSub_iff : ∀ pat l : List Char, hasSub pat l = true ↔ pat <:+: l
  | pat, [] => by
    rw [hasSub, hasPre_iff, List.prefix_nil, List.infix_nil]
  | pat, c :: cs => by
    rw [hasSub, Bool.or_eq_true, hasPre_iff, hasSub_iff pat cs]
    exact (List.infix_cons_iff).symm

/-! ### Association maps

Go maps keyed by strings.  `updateA` is insert-or-replace; the stitch code
neutralises Go's unspecified map iteration order by sorting the key set
before every use, so an association list with in-place update is an adequate
embedding. -/

/-- Lookup in an association list (Go map read). -/
def lookupA {α : Type} : List (String × α) → String → Option α
  | [], _ => none
  | (k', v') :: m, k => if k' = k then some v' else lookupA m k

/-- Insert-or-replace in an association list (Go map write). -/
def updateA {α : Type} : List (String × α) → String → α → List (String × α)
  | [], k, v => [(k, v)]
  | (k', v') :: m, k, v =>
    if k' = k then (k, v) :: m else (k', v') :: updateA m k v

/-- The key list of an association list (Go `for k := range m`). -/
def keysOf {α : Type} (m : List (String × α)) : List String := m.map Prod.fst

theorem lookupA_updateA {α : Type} (m : List (String × α)) (k v k') :
    lookupA (updateA m k v) k' = if k = k' then some v else lookupA m k' := by
  induction m with
  | nil => simp [updateA, lookupA]
  | cons e m ih =>
    obtain ⟨ek, ev⟩ := e
    by_cases hek : ek = k
    · subst hek
      by_cases h : ek = k' <;> simp [updateA, lookupA, h]
    · by_cases h1 : ek = k'
      · have h2 : ¬ k = k' := fun h2 => hek (h1.trans h2.symm)
        have h3 : ¬ k' = k := fun h3 => h2 h3.symm
        simp [updateA, lookupA, hek, h1, h2, h3]
      · by_cases h2 : k = k'
        · subst h2
          simp [updateA, lookupA, hek, h1, ih]
        · simp [updateA, lookupA, hek, h1, h2, ih]

theorem mem_keysOf_updateA {α : Type} (m : List (String × α)) (k v a) :
    a ∈ keysOf (updateA m k v) ↔ a ∈ keysOf m ∨ a = k := by
  induction m with
  | nil => simp [updateA, keysOf]
  | cons e m ih =>
    obtain ⟨ek, ev⟩ := e
    simp only [keysOf, List.map_cons, List.mem_cons] at ih ⊢
    by_cases hek : ek = k
    · subst hek
      have h2 : updateA ((ek, ev) :: m) ek v = (ek, v) :: m := by
        simp [updateA]
      rw [h2]
      simp only [List.map_cons, List.mem_cons]
      tauto
    · have h2 : updateA ((ek, ev) :: m) k v = (ek, ev) :: updateA m k v := by
        simp [updateA, hek]
      rw [h2]
      simp only [List.map_cons, List.mem_cons]
      rw [ih]
      tauto

theorem nodup_keysOf_updateA {α : Type} (m : List (String × α)) (k v)
    (h : (keysOf m).Nodup) : (keysOf (updateA m k v)).Nodup := by
  induction m with
  | nil => simp [updateA, keysOf]
  | cons e m ih =>
    obtain ⟨ek, ev⟩ := e
    simp only [keysOf, List.map_cons, List.nodup_cons] at h
    by_cases hek : ek = k
    · subst hek
      have h2 : updateA ((ek, ev) :: m) ek v = (ek, v) :: m := by
        simp [updateA]
      rw [h2]
      simp only [keysOf, List.map_cons, List.nodup_cons]
      exact h
    · have h2 : updateA ((ek, ev) :: m) k v = (ek, ev) :: updateA m k v := by
        simp [updateA, hek]
      rw [h2]
      simp only [keysOf, List.map_cons, List.nodup_cons]
      refine ⟨fun hc => ?_, ih h.2⟩
      have hc' : ek ∈ keysOf (updateA m k v) := hc
      rw [mem_keysOf_updateA] at hc'
      rcases hc' with hc' | hc'
      · exact h.1 hc'
      · exact hek hc'

/-! ### git-stitch (`init.go`, second compilation unit: the stitch `main`)

The stitch run reads the repository through four oracle functions
(`git remote get-url`, `git rev-parse <ref>`, `git rev-parse <hash>^{tree}`,
`git show -s --format=%ct <hash>`), bundled in `StitchRepo`.  The claim
context is "no intervening fetch", so the repository state is a single fixed
value (with `-no-fetch`, or with fetches that change nothing, the code reads
exactly this state).  `StitchEnv` carries the ambient wall clock and the
invoking user's git identity; the code overrides all `GIT_AUTHOR_*` /
`GIT_COMMITTER_*` variables and never reads the clock, which the embedding
renders by `stitchRun` taking the environment and not consulting it. -/

/-- Read-only repository state visible to `git-stitch`. -/
structure StitchRepo where
  remoteExists : String → Bool
  resolve : String → Option String
  treeOf : String → String
  ctime : String → Int

/-- Ambient process environment: wall-clock time and invoking user's
identity.  Never consulted by the stitch path. -/
structure StitchEnv where
  now : Int
  userName : String
  userEmail : String

/-- Content of the composite commit handed to `git mktree` + `git
commit-tree`.  `entries` are the mktree lines `040000 tree <hash>\t<name>`,
kept as (tree hash, directory name) pairs.  Content determines the commit
hash (content-addressed store). -/
structure StitchCommit where
  entries : List (String × String)
  parents : List String
  message : String
  authorName : String
  authorEmail : String
  committerName : String
  committerEmail : String
  authorDate : Int
  committerDate : Int
deriving DecidableEq, Repr

/-- First `/`-separated segment of a ref argument (`strings.SplitN(ref, "/",
2)[0]`). -/
def remoteOf (ref : String) : String :=
  match splitN2 '/' ref with
  | some (r, _) => r
  | none => ""

/-- The resolved commit hash of a ref, defaulted (only used under the
hypothesis that resolution succeeds). -/
def resolveD (repo : StitchRepo) (ref : String) : String :=
  (repo.resolve ref).getD ""

/-- Committer timestamp (`%ct`) of the commit a ref resolves to. -/
def tsOfRef (repo : StitchRepo) (ref : String) : Int :=
  repo.ctime (resolveD repo ref)

/-- The per-ref loop of the stitch `main`: parse `remote/branch`, check the
remote exists, resolve the ref, record `remoteCommits[remote] = hash`
(later refs overwrite earlier ones with the same remote), and fold the
maximum commit timestamp starting from 0. -/
def stitchLoop (repo : StitchRepo) :
    List String → List (String × String) → Int →
    Except String (List (String × String) × Int)
  | [], m, ts => .ok (m, ts)
  | ref :: rest, m, ts =>
    match splitN2 '/' ref with
    | none => .error ("ref must be in format remote/branch: " ++ ref)
    | some (remote, _branch) =>
      if repo.remoteExists remote then
        match repo.resolve ref with
        | none => .error ("error getting commit for " ++ ref)
        | some h =>
          stitchLoop repo rest (updateA m remote h)
            (if repo.ctime h > ts then repo.ctime h else ts)
      else .error ("remote does not exist: " ++ remote)

/-- After the loop: sort the distinct remote names, emit one tree entry and
one parent per remote in that order, and fill in the fixed synthetic
identity and the folded maximum timestamp. -/
def buildStitchCommit (repo : StitchRepo) (m : List (String × String))
    (ts : Int) : StitchCommit :=
  let remotes := sortStrings (keysOf m)
  { entries := remotes.map fun r => (repo.treeOf ((lookupA m r).getD ""), r)
    parents := remotes.map fun r => (lookupA m r).getD ""
    message := "git-stitch merge"
    authorName := "git-stitch"
    authorEmail := "git-stitch@localhost"
    committerName := "git-stitch"
    committerEmail := "git-stitch@localhost"
    authorDate := ts
    committerDate := ts }

/-- The whole stitch `main` after flag parsing: empty ref list is an error;
otherwise run the per-ref loop and build the composite commit. -/
def stitchRun (repo : StitchRepo) (_env : StitchEnv) (refs : List String) :
    Except String StitchCommit :=
  if refs = [] then .error "No refs specified"
  else
    match stitchLoop repo refs [] 0 with
    | .error e => .error e
    | .ok (m, ts) => .ok (buildStitchCommit repo m ts)

/-- A ref argument the run accepts: it parses as `remote/branch`, its remote
exists, and it resolves to a commit. -/
def refOk (repo : StitchRepo) (ref : String) : Prop :=
  (splitN2 '/' ref).isSome = true ∧
  repo.remoteExists (remoteOf ref) = true ∧
  (repo.resolve ref).isSome = true

instance (repo : StitchRepo) (ref : String) : Decidable (refOk repo ref) := by
  unfold refOk; infer_instance

/-- Pure shadow of the map built by the loop. -/
def collectA (repo : StitchRepo) : List String → List (String × String) →
    List (String × String)
  | [], m => m
  | ref :: rest, m =>
    collectA repo rest (updateA m (remoteOf ref) (resolveD repo ref))

/-- Pure shadow of the timestamp fold. -/
def maxTsFold (repo : StitchRepo) : List String → Int → Int
  | [], ts => ts
  | ref :: rest, ts =>
    maxTsFold repo rest (if tsOfRef repo ref > ts then tsOfRef repo ref else ts)

/-- The last ref of the list carrying a given remote name — the one whose
commit survives the Go map overwrites. -/
def lastFor : List String → String → Option String
  | [], _ => none
  | ref :: rest, r =>
    match lastFor rest r with
    | some x => some x
    | none => if remoteOf ref = r then some ref else none

theorem stitchLoop_ok (repo : StitchRepo) (refs : List String) :
    ∀ m ts, (∀ ref ∈ refs, refOk repo ref) →
    stitchLoop repo refs m ts = .ok (collectA repo refs m, maxTsFold repo refs ts) := by
  induction refs with
  | nil => intro m ts _; rfl
  | cons ref rest ih =>
    intro m ts hok
    obtain ⟨h1, h2, h3⟩ := hok ref (List.mem_cons_self _ _)
    match hs : splitN2 '/' ref with
    | none => rw [hs] at h1; simp at h1
    | some (remote, branch) =>
      have hrem : remoteOf ref = remote := by
        unfold remoteOf; rw [hs]
      match hr : repo.resolve ref with
      | none => rw [hr] at h3; simp at h3
      | some h =>
        have hD : resolveD repo ref = h := by
          simp [resolveD, hr]
        rw [hrem] at h2
        simp only [stitchLoop, hs, h2, if_true, hr]
        rw [ih _ _ (fun x hx => hok x (List.mem_cons_of_mem _ hx))]
        simp only [collectA, maxTsFold, hrem, hD, tsOfRef]

theorem lookupA_collectA (repo : StitchRepo) (refs : List String) :
    ∀ m r, lookupA (collectA repo refs m) r =
      match lastFor refs r with
      | some ref => some (resolveD repo ref)
      | none => lookupA m r := by
  induction refs with
  | nil => intro m r; rfl
  | cons ref rest ih =>
    intro m r
    simp only [collectA, lastFor]
    rw [ih]
    cases hl : lastFor rest r with
    | some x => simp
    | none =>
      simp only
      by_cases hr : remoteOf ref = r
      · simp [hr, lookupA_updateA]
      · rw [if_neg hr, lookupA_updateA, if_neg (fun hh => hr hh)]

theorem mem_keysOf_collectA (repo : StitchRepo) (refs : List String) :
    ∀ m a, a ∈ keysOf (collectA repo refs m) ↔
      (∃ ref ∈ refs, remoteOf ref = a) ∨ a ∈ keysOf m := by
  induction refs with
  | nil => intro m a; simp [collectA]
  | cons ref rest ih =>
    intro m a
    simp only [collectA]
    rw [ih, mem_keysOf_updateA]
    constructor
    · rintro (h | (h | h))
      · obtain ⟨x, hx, hxa⟩ := h
        exact Or.inl ⟨x, List.mem_cons_of_mem _ hx, hxa⟩
      · exact Or.inr h
      · exact Or.inl ⟨ref, List.mem_cons_self _ _, h.symm⟩
    · rintro (⟨x, hx, hxa⟩ | h)
      · rcases List.mem_cons.mp hx with hx | hx
        · exact Or.inr (Or.inr (hx ▸ hxa.symm))
        · exact Or.inl ⟨x, hx, hxa⟩
      · exact Or.inr (Or.inl h)

theorem nodup_keysOf_collectA (repo : StitchRepo) (refs : List String) :
    ∀ m, (keysOf m).Nodup → (keysOf (collectA repo refs m)).Nodup := by
  induction refs with
  | nil => intro m h; exact h
  | cons ref rest ih =>
    intro m h
    exact ih _ (nodup_keysOf_updateA _ _ _ h)

theorem lastFor_mem (refs : List String) (r : String) (ref : String)
    (h : lastFor refs r = some ref) : ref ∈ refs ∧ remoteOf ref = r := by
  induction refs with
  | nil => simp [lastFor] at h
  | cons x rest ih =>
    simp only [lastFor] at h
    cases hl : lastFor rest r with
    | some y =>
      rw [hl] at h
      obtain ⟨hy, hr⟩ := ih (hl.trans (by rw [← h]))
      exact ⟨List.mem_cons_of_mem _ hy, hr⟩
    | none =>
      rw [hl] at h
      by_cases hx : remoteOf x = r
      · rw [if_pos hx] at h
        cases h
        exact ⟨List.mem_cons_self _ _, hx⟩
      · rw [if_neg hx] at h
        cases h

theorem lastFor_isSome (refs : List String) (r : String) :
    (lastFor refs r).isSome = true ↔ ∃ ref ∈ refs, remoteOf ref = r := by
  induction refs with
  | nil => simp [lastFor]
  | cons x rest ih =>
    simp only [lastFor]
    cases hl : lastFor rest r with
    | some y =>
      rw [hl] at ih
      constructor
      · intro _
        obtain ⟨ref, hr, hra⟩ := ih.mp rfl
        exact ⟨ref, List.mem_cons_of_mem _ hr, hra⟩
      · intro _; rfl
    | none =>
      rw [hl] at ih
      by_cases hx : remoteOf x = r
      · rw [if_pos hx]
        constructor
        · intro _
          exact ⟨x, List.mem_cons_self _ _, hx⟩
        · intro _; rfl
      · rw [if_neg hx]
        constructor
        · intro h
          exact absurd h (by simp)
        · rintro ⟨y, hy, hya⟩
          rcases List.mem_cons.mp hy with rfl | hy
          · exact absurd hya hx
          · exact absurd (ih.mpr ⟨y, hy, hya⟩) (by simp)

theorem lastFor_of_nodup (refs : List String)
    (hnd : (refs.map remoteOf).Nodup) (ref : String) (hm : ref ∈ refs) :
    lastFor refs (remoteOf ref) = some ref := by
  induction refs with
  | nil => cases hm
  | cons x rest ih =>
    simp only [List.map_cons, List.nodup_cons] at hnd
    rcases List.mem_cons.mp hm with rfl | hm
    · have hnone : lastFor rest (remoteOf ref) = none := by
        cases hl : lastFor rest (remoteOf ref) with
        | none => rfl
        | some y =>
          obtain ⟨hy, hr⟩ := lastFor_mem _ _ _ hl
          exact absurd (hr ▸ List.mem_map_of_mem remoteOf hy) hnd.1
      simp [lastFor, hnone]
    · simp [lastFor, ih hnd.2 hm]

theorem maxTsFold_ge_acc (repo : StitchRepo) (refs : List String) :
    ∀ ts, ts ≤ maxTsFold repo refs ts := by
  induction refs with
  | nil => intro ts; exact le_refl ts
  | cons ref rest ih =>
    intro ts
    simp only [maxTsFold]
    by_cases h : tsOfRef repo ref > ts
    · rw [if_pos h]
      exact le_trans (le_of_lt h) (ih _)
    · rw [if_neg h]
      exact ih ts

theorem maxTsFold_ge_mem (repo : StitchRepo) (refs : List String) :
    ∀ ts ref, ref ∈ refs → tsOfRef repo ref ≤ maxTsFold repo refs ts := by
  induction refs with
  | nil => intro ts ref h; cases h
  | cons x rest ih =>
    intro ts ref h
    rcases List.mem_cons.mp h with rfl | h
    · simp only [maxTsFold]
      by_cases hc : tsOfRef repo ref > ts
      · rw [if_pos hc]; exact maxTsFold_ge_acc repo rest _
      · rw [if_neg hc]
        exact le_trans (le_of_not_lt hc) (maxTsFold_ge_acc repo rest ts)
    · simp only [maxTsFold]
      by_cases hc : tsOfRef repo x > ts <;> [rw [if_pos hc]; rw [if_neg hc]] <;>
        exact ih _ _ h

theorem maxTsFold_cases (repo : StitchRepo) (refs : List String) :
    ∀ ts, maxTsFold repo refs ts = ts ∨
      ∃ ref ∈ refs, maxTsFold repo refs ts = tsOfRef repo ref := by
  induction refs with
  | nil => intro ts; exact Or.inl rfl
  | cons x rest ih =>
    intro ts
    simp only [maxTsFold]
    by_cases hc : tsOfRef repo x > ts
    · rw [if_pos hc]
      rcases ih (tsOfRef repo x) with h | ⟨ref, hr, he⟩
      · exact Or.inr ⟨x, List.mem_cons_self _ _, h⟩
      · exact Or.inr ⟨ref, List.mem_cons_of_mem _ hr, he⟩
    · rw [if_neg hc]
      rcases ih ts with h | ⟨ref, hr, he⟩
      · exact Or.inl h
      · exact Or.inr ⟨ref, List.mem_cons_of_mem _ hr, he⟩

theorem maxTsFold_congr_mem (repo : StitchRepo) (refs₁ refs₂ : List String)
    (hm : ∀ x, x ∈ refs₁ ↔ x ∈ refs₂) (ts : Int) :
    maxTsFold repo refs₁ ts = maxTsFold repo refs₂ ts := by
  apply le_antisymm
  · rcases maxTsFold_cases repo refs₁ ts with h | ⟨ref, hr, he⟩
    · rw [h]; exact maxTsFold_ge_acc repo refs₂ ts
    · rw [he]; exact maxTsFold_ge_mem repo refs₂ ts ref ((hm ref).mp hr)
  · rcases maxTsFold_cases repo refs₂ ts with h | ⟨ref, hr, he⟩
    · rw [h]; exact maxTsFold_ge_acc repo refs₁ ts
    · rw [he]; exact maxTsFold_ge_mem repo refs₁ ts ref ((hm ref).mpr hr)

theorem stitchRun_ok (repo : StitchRepo) (env : StitchEnv) (refs : List String)
    (hne : refs ≠ []) (hok : ∀ ref ∈ refs, refOk repo ref) :
    stitchRun repo env refs =
      .ok (buildStitchCommit repo (collectA repo refs []) (maxTsFold repo refs 0)) := by
  simp only [stitchRun]
  rw [if_neg hne, stitchLoop_ok repo refs [] 0 hok]

theorem mem_sortKeys (repo : StitchRepo) (refs : List String) (r : String) :
    r ∈ sortStrings (keysOf (collectA repo refs [])) ↔
      ∃ ref ∈ refs, remoteOf ref = r := by
  rw [sortStrings, List.mem_insertionSort, mem_keysOf_collectA]
  simp [keysOf]

theorem lookupA_collectA_of_mem (repo : StitchRepo) (refs : List String)
    (hnd : (refs.map remoteOf).Nodup) (ref : String) (hm : ref ∈ refs) :
    lookupA (collectA repo refs []) (remoteOf ref) = some (resolveD repo ref) := by
  rw [lookupA_collectA, lastFor_of_nodup refs hnd ref hm]

/-- Claim C2.  For a fixed repository state (fixed ref resolution, i.e. no
intervening fetch), two stitch runs over the same set of component refs,
even in different argument orders and under different wall-clock times and
invoking users, produce the same composite commit content — hence, the
store being content-addressed, byte-identical composite commit hashes. -/
theorem stitch_deterministic (repo : StitchRepo) (env₁ env₂ : StitchEnv)
    (refs₁ refs₂ : List String) (hperm : refs₁.Perm refs₂)
    (hok : ∀ ref ∈ refs₁, refOk repo ref)
    (hnd : (refs₁.map remoteOf).Nodup) :
    stitchRun repo env₁ refs₁ = stitchRun repo env₂ refs₂ := by
  have hok₂ : ∀ ref ∈ refs₂, refOk repo ref := fun ref h =>
    hok ref (hperm.mem_iff.mpr h)
  have hnd₂ : (refs₂.map remoteOf).Nodup := ((hperm.map remoteOf).nodup_iff).mp hnd
  by_cases hnil : refs₁ = []
  · subst hnil
    rw [hperm.symm.eq_nil]
    rfl
  · have hnil₂ : refs₂ ≠ [] := fun h => hnil (by rw [h] at hperm; exact hperm.eq_nil)
    rw [stitchRun_ok repo env₁ refs₁ hnil hok, stitchRun_ok repo env₂ refs₂ hnil₂ hok₂]
    have hndk₁ : (keysOf (collectA repo refs₁ [])).Nodup :=
      nodup_keysOf_collectA repo refs₁ [] (by simp [keysOf])
    have hndk₂ : (keysOf (collectA repo refs₂ [])).Nodup :=
      nodup_keysOf_collectA repo refs₂ [] (by simp [keysOf])
    have hmemk : ∀ a, a ∈ keysOf (collectA repo refs₁ []) ↔
        a ∈ keysOf (collectA repo refs₂ []) := by
      intro a
      rw [mem_keysOf_collectA, mem_keysOf_collectA]
      simp only [keysOf, List.map_nil, List.not_mem_nil, or_false]
      constructor
      · rintro ⟨ref, h, hr⟩; exact ⟨ref, hperm.mem_iff.mp h, hr⟩
      · rintro ⟨ref, h, hr⟩; exact ⟨ref, hperm.mem_iff.mpr h, hr⟩
    have hkeysperm : (keysOf (collectA repo refs₁ [])).Perm
        (keysOf (collectA repo refs₂ [])) :=
      (List.perm_ext_iff_of_nodup hndk₁ hndk₂).mpr hmemk
    have hS : sortStrings (keysOf (collectA repo refs₁ [])) =
        sortStrings (keysOf (collectA repo refs₂ [])) :=
      List.eq_of_perm_of_sorted
        (((List.perm_insertionSort strLe _).trans hkeysperm).trans
          (List.perm_insertionSort strLe _).symm)
        (List.sorted_insertionSort strLe _) (List.sorted_insertionSort strLe _)
    have hlook : ∀ r ∈ sortStrings (keysOf (collectA repo refs₁ [])),
        lookupA (collectA repo refs₁ []) r = lookupA (collectA repo refs₂ []) r := by
      intro r hr
      obtain ⟨ref, hm, rfl⟩ := (mem_sortKeys repo refs₁ r).mp hr
      rw [lookupA_collectA_of_mem repo refs₁ hnd ref hm,
        lookupA_collectA_of_mem repo refs₂ hnd₂ ref (hperm.mem_iff.mp hm)]
    have hts := maxTsFold_congr_mem repo refs₁ refs₂ (fun x => hperm.mem_iff) 0
    have h1 : (sortStrings (keysOf (collectA repo refs₁ []))).map
          (fun r => (repo.treeOf ((lookupA (collectA repo refs₁ []) r).getD ""), r)) =
        (sortStrings (keysOf (collectA repo refs₁ []))).map
          (fun r => (repo.treeOf ((lookupA (collectA repo refs₂ []) r).getD ""), r)) :=
      List.map_congr_left (fun r hr => by rw [hlook r hr])
    have h2 : (sortStrings (keysOf (collectA repo refs₁ []))).map
          (fun r => (lookupA (collectA repo refs₁ []) r).getD "") =
        (sortStrings (keysOf (collectA repo refs₁ []))).map
          (fun r => (lookupA (collectA repo refs₂ []) r).getD "") :=
      List.map_congr_left (fun r hr => by rw [hlook r hr])
    simp only [buildStitchCommit]
    rw [← hS, ← hts, h1, h2]

/-- Concrete repository state used by the stitch witnesses: two remotes
`alpha` and `beta` whose default-branch refs resolve to commits `ca` and
`cb` with trees `ta`, `tb` and committer timestamps 100 and 50. -/
def wRepoStitch : StitchRepo where
  remoteExists := fun r => r == "alpha" || r == "beta"
  resolve := fun ref =>
    if ref = "alpha/main" then some "ca"
    else if ref = "beta/main" then some "cb"
    else if ref = "alpha/dev" then some "cd"
    else none
  treeOf := fun h =>
    if h = "ca" then "ta" else if h = "cb" then "tb"
    else if h = "cd" then "td" else "t0"
  ctime := fun h =>
    if h = "ca" then 100 else if h = "cb" then 50
    else if h = "cd" then 70 else 0

/-- Witness for C2: the hypotheses hold at a concrete repository, and the
two runs — permuted arguments, different clocks and users — coincide. -/
theorem stitch_deterministic_witness :
    (["beta/main", "alpha/main"].Perm ["alpha/main", "beta/main"] ∧
     (∀ ref ∈ ["beta/main", "alpha/main"], refOk wRepoStitch ref) ∧
     ((["beta/main", "alpha/main"].map remoteOf).Nodup)) ∧
    stitchRun wRepoStitch ⟨1700000000, "alice", "alice@example.com"⟩
        ["beta/main", "alpha/main"] =
      stitchRun wRepoStitch ⟨1800000000, "bob", "bob@example.com"⟩
        ["alpha/main", "beta/main"] :=
  ⟨⟨by decide, by decide, by decide⟩,
   stitch_deterministic wRepoStitch _ _ _ _ (by decide) (by decide) (by decide)⟩

/-- Claim C9.  The stitch operation keys components by remote name (the first
`/`-separated segment of each ref argument).  The composite commit carries
exactly one directory entry and one parent per distinct remote name — never
one per ref argument — and the commit recorded for a remote is the one of
the *last* ref argument naming that remote (`lastFor`), the Go map
overwrite. -/
theorem stitch_keyed_by_remote (repo : StitchRepo) (env : StitchEnv)
    (refs : List String) (hne : refs ≠ [])
    (hok : ∀ ref ∈ refs, refOk repo ref) :
    ∃ c : StitchCommit, stitchRun repo env refs = .ok c ∧
      ∃ names : List String,
        names.Nodup ∧
        (∀ r, r ∈ names ↔ ∃ ref ∈ refs, remoteOf ref = r) ∧
        c.entries = names.map (fun r =>
          (repo.treeOf (resolveD repo ((lastFor refs r).getD "")), r)) ∧
        c.parents = names.map (fun r => resolveD repo ((lastFor refs r).getD "")) := by
  refine ⟨_, stitchRun_ok repo env refs hne hok, ?_⟩
  refine ⟨sortStrings (keysOf (collectA repo refs [])), ?_, ?_, ?_, ?_⟩
  · exact ((List.perm_insertionSort strLe _).nodup_iff).mpr
      (nodup_keysOf_collectA repo refs [] (by simp [keysOf]))
  · exact fun r => mem_sortKeys repo refs r
  · simp only [buildStitchCommit]
    refine List.map_congr_left (fun r hr => ?_)
    obtain ⟨ref, hm, rfl⟩ := (mem_sortKeys repo refs r).mp hr
    obtain ⟨ref', he'⟩ := Option.isSome_iff_exists.mp
      ((lastFor_isSome refs (remoteOf ref)).mpr ⟨ref, hm, rfl⟩)
    rw [lookupA_collectA, he']
    simp
  · simp only [buildStitchCommit]
    refine List.map_congr_left (fun r hr => ?_)
    obtain ⟨ref, hm, rfl⟩ := (mem_sortKeys repo refs r).mp hr
    obtain ⟨ref', he'⟩ := Option.isSome_iff_exists.mp
      ((lastFor_isSome refs (remoteOf ref)).mpr ⟨ref, hm, rfl⟩)
    rw [lookupA_collectA, he']
    simp

/-- Witness for C9 at a concrete input in which two ref arguments name the
same remote: `alpha/main` then `alpha/dev` — the composite gets a single
`alpha` entry, bound to the later ref's commit. -/
theorem stitch_keyed_by_remote_witness :
    ((["alpha/main", "alpha/dev", "beta/main"] : List String) ≠ [] ∧
     (∀ ref ∈ ["alpha/main", "alpha/dev", "beta/main"], refOk wRepoStitch ref)) ∧
    (∃ c : StitchCommit,
      stitchRun wRepoStitch ⟨0, "", ""⟩ ["alpha/main", "alpha/dev", "beta/main"] = .ok c ∧
      ∃ names : List String,
        names.Nodup ∧
        (∀ r, r ∈ names ↔
          ∃ ref ∈ ["alpha/main", "alpha/dev", "beta/main"], remoteOf ref = r) ∧
        c.entries = names.map (fun r =>
          (wRepoStitch.treeOf (resolveD wRepoStitch
            ((lastFor ["alpha/main", "alpha/dev", "beta/main"] r).getD "")), r)) ∧
        c.parents = names.map (fun r => resolveD wRepoStitch
          ((lastFor ["alpha/main", "alpha/dev", "beta/main"] r).getD ""))) := by
  exact ⟨⟨by decide, by decide⟩, by
    have h := stitch_keyed_by_remote wRepoStitch ⟨0, "", ""⟩
      ["alpha/main", "alpha/dev", "beta/main"] (by decide) (by decide)
    simpa using h⟩

/-- Claim C5.  Every composite commit built by stitching carries the fixed
synthetic identity `git-stitch <git-stitch@localhost>` as both author and
committer — never the invoking user's identity — and its (author =
committer) timestamp is the maximum of its parents' committer timestamps.
(The loop folds the maximum starting from 0, so the statement assumes the
parents' `%ct` values are nonnegative, as git epoch timestamps are.) -/
theorem stitch_identity_and_timestamp (repo : StitchRepo) (env : StitchEnv)
    (refs : List String) (hne : refs ≠ [])
    (hok : ∀ ref ∈ refs, refOk repo ref)
    (hnd : (refs.map remoteOf).Nodup)
    (hpos : ∀ ref ∈ refs, 0 ≤ tsOfRef repo ref) :
    ∃ c : StitchCommit, stitchRun repo env refs = .ok c ∧
      c.authorName = "git-stitch" ∧ c.authorEmail = "git-stitch@localhost" ∧
      c.committerName = "git-stitch" ∧ c.committerEmail = "git-stitch@localhost" ∧
      c.authorDate = c.committerDate ∧
      c.committerDate ∈ c.parents.map repo.ctime ∧
      ∀ t ∈ c.parents.map repo.ctime, t ≤ c.committerDate := by
  refine ⟨_, stitchRun_ok repo env refs hne hok, rfl, rfl, rfl, rfl, rfl, ?_, ?_⟩
  · -- the folded timestamp is attained by some parent
    have hmem : ∀ ref ∈ refs, tsOfRef repo ref ∈
        (buildStitchCommit repo (collectA repo refs [])
          (maxTsFold repo refs 0)).parents.map repo.ctime := by
      intro ref hm
      simp only [buildStitchCommit, List.map_map, List.mem_map]
      refine ⟨remoteOf ref, (mem_sortKeys repo refs _).mpr ⟨ref, hm, rfl⟩, ?_⟩
      simp only [Function.comp_apply]
      rw [lookupA_collectA_of_mem repo refs hnd ref hm]
      rfl
    rcases maxTsFold_cases repo refs 0 with h | ⟨ref, hm, he⟩
    · obtain ⟨ref₀, hm₀⟩ := List.exists_mem_of_ne_nil refs hne
      have h1 : tsOfRef repo ref₀ ≤ 0 := h ▸ maxTsFold_ge_mem repo refs 0 ref₀ hm₀
      have h2 : tsOfRef repo ref₀ = 0 := le_antisymm h1 (hpos ref₀ hm₀)
      have := hmem ref₀ hm₀
      rw [h2] at this
      simpa [buildStitchCommit, h] using this
    · rw [show (buildStitchCommit repo (collectA repo refs [])
          (maxTsFold repo refs 0)).committerDate = maxTsFold repo refs 0 from rfl, he]
      exact hmem ref hm
  · -- every parent's timestamp is bounded by the folded maximum
    intro t ht
    simp only [buildStitchCommit, List.map_map, List.mem_map] at ht
    obtain ⟨r, hr, hv⟩ := ht
    obtain ⟨ref, hm, rfl⟩ := (mem_sortKeys repo refs r).mp hr
    simp only [Function.comp_apply] at hv
    rw [lookupA_collectA_of_mem repo refs hnd ref hm] at hv
    have : t = tsOfRef repo ref := hv.symm
    rw [this]
    exact maxTsFold_ge_mem repo refs 0 ref hm

/-- Witness for C5 at the concrete two-remote repository: hypotheses hold
and the theorem applies. -/
theorem stitch_identity_and_timestamp_witness :
    ((["alpha/main", "beta/main"] : List String) ≠ [] ∧
     (∀ ref ∈ ["alpha/main", "beta/main"], refOk wRepoStitch ref) ∧
     ((["alpha/main", "beta/main"].map remoteOf).Nodup) ∧
     (∀ ref ∈ ["alpha/main", "beta/main"], 0 ≤ tsOfRef wRepoStitch ref)) ∧
    (∃ c : StitchCommit,
      stitchRun wRepoStitch ⟨0, "", ""⟩ ["alpha/main", "beta/main"] = .ok c ∧
      c.authorName = "git-stitch" ∧ c.authorEmail = "git-stitch@localhost" ∧
      c.committerName = "git-stitch" ∧ c.committerEmail = "git-stitch@localhost" ∧
      c.authorDate = c.committerDate ∧
      c.committerDate ∈ c.parents.map wRepoStitch.ctime ∧
      ∀ t ∈ c.parents.map wRepoStitch.ctime, t ≤ c.committerDate) :=
  ⟨⟨by decide, by decide, by decide, by decide⟩,
   stitch_identity_and_timestamp wRepoStitch ⟨0, "", ""⟩ ["alpha/main", "beta/main"]
     (by decide) (by decide) (by decide) (by decide)⟩

/-! ### git-rip (`cmd/git-rip/main.go`)

The partitioner reads the repository through `git log`, `git rev-list`,
`git ls-tree`, `git show`, `git diff-tree`, `git rev-parse` and a scratch
index (`git read-tree` / `update-index` / `write-tree`), and finally creates
branches with `git branch`.  Those reads are bundled in `RipStore`; the only
mutation a run performs besides writing fresh content-addressed objects is
creating branch refs, which none of the reads consult, so a run leaves
`RipStore` unchanged and `RipRepo` separates the existing branch names from
it. -/

/-- Parsed commit metadata as produced by `getCommitInfo` (`git show -s
--format=%H%x00%B%x00%an%x00%ae%x00%at%x00%cn%x00%ce%x00%ct`, the message
trimmed). -/
structure CommitInfo where
  hash : String
  message : String
  authorName : String
  authorEmail : String
  authorTimestamp : Int
  committerName : String
  committerEmail : String
  committerTimestamp : Int
deriving DecidableEq, Repr

/-- One line of `git diff-tree --no-commit-id --name-status -r`: a status
letter and a path relative to the composite root. -/
structure FileChange where
  path : String
  status : String
deriving DecidableEq, Repr

/-- One line of top-level `git ls-tree`: mode, object type, hash, name. -/
structure TreeEntry where
  mode : String
  etype : String
  hash : String
  name : String
deriving DecidableEq, Repr

/-- The scratch-index view of a tree: a flat list of (path, mode, blob
hash) entries, as `git read-tree` materialises it.  `update-index` replaces
an existing path in place or appends a new one; `write-tree` is determined
by the resulting path map. -/
abbrev GTree := List (String × String × String)

/-- A commit reachable during a rip run: either a pre-existing commit of
the store, identified by hash, or a commit created by the run, identified
by its content (tree, parent, message, author, committer).  The store is
content addressed, so `GCommit` equality is commit-hash equality. -/
inductive GCommit where
  | orig (hash : String)
  | made (tree : GTree) (parent : GCommit) (message : String)
      (authorName authorEmail : String) (authorTimestamp : Int)
      (committerName committerEmail : String) (committerTimestamp : Int)
deriving DecidableEq, Repr

/-- Number of commits stacked by the run on top of a pre-existing head. -/
def GCommit.depth : GCommit → Nat
  | .orig _ => 0
  | .made _ p _ _ _ _ _ _ _ => p.depth + 1

/-- Message of a commit created by the run. -/
def GCommit.msg? : GCommit → Option String
  | .orig _ => none
  | .made _ _ m _ _ _ _ _ _ => some m

/-- Author name of a commit created by the run. -/
def GCommit.aname? : GCommit → Option String
  | .orig _ => none
  | .made _ _ _ an _ _ _ _ _ => some an

/-- Author email of a commit created by the run. -/
def GCommit.amail? : GCommit → Option String
  | .orig _ => none
  | .made _ _ _ _ ae _ _ _ _ => some ae

/-- Author timestamp of a commit created by the run. -/
def GCommit.atime? : GCommit → Option Int
  | .orig _ => none
  | .made _ _ _ _ _ at_ _ _ _ => some at_

/-- Read-only repository state visible to `git-rip`. -/
structure RipStore where
  /-- `git log --format=%H` of the current branch, most recent first,
  paired with each commit's (trimmed) message for the `--grep` filter. -/
  headLog : List CommitInfo
  /-- `git rev-list --reverse <base>..HEAD` with `getCommitInfo` applied to
  each hash: the composite commits after the base, oldest first. -/
  commitsAfter : String → List CommitInfo
  /-- Top-level `git ls-tree <commit>`. -/
  topTree : String → List TreeEntry
  /-- `git show -s --format=%P <commit>`: recorded parent hashes in order. -/
  parentsOf : String → List String
  /-- `git rev-parse <commit>:<dir>`: the subtree hash of a top-level
  directory, `none` when the path does not exist in the commit. -/
  subtreeOf : String → String → Option String
  /-- `git rev-parse <commit>^{tree}`: the root tree hash. -/
  rootTreeOf : String → String
  /-- `git diff-tree --no-commit-id --name-status -r <commit>`. -/
  changedFiles : String → List FileChange
  /-- `git rev-parse <commit>:<path>` + `git ls-tree <commit> <path>`:
  the (mode, blob hash) of a file in a commit, `none` on failure. -/
  blobAt : String → String → Option (String × String)
  /-- `git read-tree <commit>^{tree}` into a scratch index: the flat
  (path, mode, blob) listing of a pre-existing commit's tree. -/
  indexOf : String → GTree

/-- The repository as `git-rip` sees it: the object-store reads plus the
set of existing branch names (consulted only by `git branch`). -/
structure RipRepo where
  store : RipStore
  branches : List String

/-- The reserved marker message written by the stitch operation. -/
def marker : String := "git-stitch merge"

/-- `git log --grep="git-stitch merge"` message filter: the marker pattern
has no regular-expression metacharacters, so a commit matches exactly when
its message contains the marker as a substring. -/
def grepMatch (msg : String) : Bool := hasSub marker.data msg.data

/-- `findBaseMergeCommit`: `git log --grep="git-stitch merge" --format=%H
-1` returns the most recent matching commit of the current branch; empty
output is the fatal `no merge commit found` error. -/
def findBaseMergeCommit (log : List CommitInfo) : Except String String :=
  match log.find? (fun ci => grepMatch ci.message) with
  | some ci => .ok ci.hash
  | none => .error "no merge commit found with marker message"

/-- `getRemotesFromBaseCommit`: keep the top-level `ls-tree` entries whose
type is `tree`, take their names, sort. -/
def getRemotesFromBaseCommit (st : RipStore) (base : String) : List String :=
  sortStrings (((st.topTree base).filter (fun e => e.etype == "tree")).map (·.name))

/-- The parent-matching loop of `getOriginalCommitForRemote`: return the
first parent whose root tree hash equals the base commit's subtree hash for
this remote directory; skip a parent when the subtree cannot be resolved. -/
def findMatchingParent (st : RipStore) (base remote : String) :
    List String → Option String
  | [] => none
  | p :: rest =>
    match st.subtreeOf base remote with
    | none => findMatchingParent st base remote rest
    | some rt =>
      if st.rootTreeOf p = rt then some p
      else findMatchingParent st base remote rest

/-- `getOriginalCommitForRemote`: error when the base commit has no
parents; otherwise the first content-matching parent, and when no parent
matches, the fallback returns the base commit's *first* parent. -/
def getOriginalCommitForRemote (st : RipStore) (base remote : String) :
    Except String String :=
  match st.parentsOf base with
  | [] => .error ("no parents found for base commit " ++ base)
  | p :: ps =>
    match findMatchingParent st base remote (p :: ps) with
    | some q => .ok q
    | none => .ok p

/-- The per-component branch cursors (`branchHeads` map); a missing key
reads as the zero value, i.e. the empty hash. -/
abbrev Heads := List (String × GCommit)

/-- Read a component's current head. -/
def getHead (hs : Heads) (r : String) : GCommit :=
  (lookupA hs r).getD (.orig "")

/-- Initialise every component's head from its matched original commit. -/
def initHeads (st : RipStore) (base : String) :
    List String → Heads → Except String Heads
  | [], hs => .ok hs
  | r :: rest, hs =>
    match getOriginalCommitForRemote st base r with
    | .error e => .error e
    | .ok h => initHeads st base rest (updateA hs r (.orig h))

/-- The grouping loop of the rip `main`: a change whose path splits as
`remote/rest` with this remote name is attributed to it, with the
component-relative path; changes with no `/` in the path, or with a
top-level segment that is not a known component, are attributed to no
component.  (The processing loop reads the group map only at known
component names, for which the `slices.Contains` guard is equivalent to
this per-name filter.) -/
def changesFor (changes : List FileChange) (r : String) : List FileChange :=
  changes.filterMap fun ch =>
    match splitN2 '/' ch.path with
    | none => none
    | some (top, rest) => if top = r then some ⟨rest, ch.status⟩ else none

/-- Remove a path from the scratch index (`git update-index --remove`). -/
def removePath : GTree → String → GTree
  | [], _ => []
  | e :: t, p => if e.1 = p then removePath t p else e :: removePath t p

/-- Add or replace a path in the scratch index (`git update-index --add
--cacheinfo <mode> <blob> <path>`). -/
def setPath : GTree → String → String → String → GTree
  | [], p, mode, blob => [(p, mode, blob)]
  | e :: t, p, mode, blob =>
    if e.1 = p then (p, mode, blob) :: t else e :: setPath t p mode blob

/-- The tree a parent commit contributes to the scratch index. -/
def treeOfCommit (st : RipStore) : GCommit → GTree
  | .orig h => st.indexOf h
  | .made t _ _ _ _ _ _ _ _ => t

/-- The switch of `createCommitForRemoteSingleChange`: deletions remove the
path, additions and modifications look the blob and mode up in the
composite commit and set the path; any other status letter leaves the index
unchanged (the Go switch has no default case). -/
def applyChange (st : RipStore) (cHash remote : String) (t : GTree)
    (ch : FileChange) : Except String GTree :=
  if ch.status = "D" then .ok (removePath t ch.path)
  else if ch.status = "A" ∨ ch.status = "M" then
    match st.blobAt cHash (remote ++ "/" ++ ch.path) with
    | none => .error ("failed to get blob hash for " ++ remote ++ "/" ++ ch.path)
    | some (mode, blob) => .ok (setPath t ch.path mode blob)
  else .ok t

/-- `createCommitForRemoteSingleChange`: apply one change to the parent's
tree in the scratch index, then `git commit-tree` with the composite
commit's message, author and committer (all exported into the
environment). -/
def mkSingle (st : RipStore) (ci : CommitInfo) (remote : String)
    (ch : FileChange) (parent : GCommit) : Except String GCommit :=
  match applyChange st ci.hash remote (treeOfCommit st parent) ch with
  | .error e => .error e
  | .ok t => .ok (.made t parent ci.message ci.authorName ci.authorEmail
      ci.authorTimestamp ci.committerName ci.committerEmail ci.committerTimestamp)

/-- `createCommitForRemoteWithChanges`: apply the changes one by one, each
producing its own commit chained on the previous one.  Returns the commits
created before a failure alongside the outcome (objects written before the
run aborts are real, though orphaned). -/
def mkChain (st : RipStore) (ci : CommitInfo) (remote : String) :
    List FileChange → GCommit → List GCommit × Except String GCommit
  | [], parent => ([], .ok parent)
  | ch :: rest, parent =>
    match mkSingle st ci remote ch parent with
    | .error e => ([], .error e)
    | .ok c =>
      match mkChain st ci remote rest c with
      | (cs, res) => (c :: cs, res)

/-- The per-composite-commit loop body: for each component in order, skip
it when no change is attributed to it, otherwise build the chain from its
current head and advance the head. -/
def processRemotes (st : RipStore) (ci : CommitInfo) (changes : List FileChange) :
    List String → Heads → List GCommit × Except String Heads
  | [], hs => ([], .ok hs)
  | r :: rest, hs =>
    if changesFor changes r = [] then processRemotes st ci changes rest hs
    else
      match mkChain st ci r (changesFor changes r) (getHead hs r) with
      | (cs, .error e) => (cs, .error e)
      | (cs, .ok h) =>
        match processRemotes st ci changes rest (updateA hs r h) with
        | (cs', res) => (cs ++ cs', res)

/-- The main processing loop over the composite commits after the base,
oldest first; each created commit is tagged with the composite commit it
was derived from. -/
def processAll (st : RipStore) (remotes : List String) :
    List CommitInfo → Heads → List (CommitInfo × GCommit) × Except String Heads
  | [], hs => ([], .ok hs)
  | ci :: rest, hs =>
    match processRemotes st ci (st.changedFiles ci.hash) remotes hs with
    | (cs, .error e) => (cs.map (fun c => (ci, c)), .error e)
    | (cs, .ok hs') =>
      match processAll st remotes rest hs' with
      | (cs', res) => (cs.map (fun c => (ci, c)) ++ cs', res)

/-- The final loop: `git branch <prefix>-<remote> <head>` per component.
`git branch` fails when the name already exists; branches created before a
mid-loop failure are reported (the process exits leaving them). -/
def publishBranches (pfx : String) (hs : Heads) (existing : List String) :
    List String → List (String × GCommit) × Option String
  | [] => ([], none)
  | r :: rest =>
    if (pfx ++ "-" ++ r) ∈ existing then
      ([], some ("error creating branch " ++ pfx ++ "-" ++ r))
    else
      match publishBranches pfx hs ((pfx ++ "-" ++ r) :: existing) rest with
      | (bs, err) => ((pfx ++ "-" ++ r, getHead hs r) :: bs, err)

/-- An observable side effect of a rip run: writing a commit object, or
creating a branch ref. -/
inductive Action where
  | writeCommit (c : GCommit)
  | newBranch (name : String) (head : GCommit)
deriving DecidableEq, Repr

/-- Outcome of a successful rip run. -/
structure RipResult where
  /-- The run printed `No commits to rip since base commit` and stopped. -/
  noCommits : Bool
  /-- Every commit created, tagged with its source composite commit. -/
  created : List (CommitInfo × GCommit)
  /-- The branches created at the end: name and head. -/
  branches : List (String × GCommit)
deriving DecidableEq, Repr

/-- Everything the run computes before touching branch refs: find the base,
list the composite commits (stopping early when there are none), derive the
component set, initialise the heads, process every commit.  Returns the
commits created so far even on failure. -/
def ripCore (st : RipStore) :
    List (CommitInfo × GCommit) × Except String (Option (List String × Heads)) :=
  match findBaseMergeCommit st.headLog with
  | .error e => ([], .error e)
  | .ok base =>
    if st.commitsAfter base = [] then ([], .ok none)
    else
      match initHeads st base (getRemotesFromBaseCommit st base) [] with
      | .error e => ([], .error e)
      | .ok hs0 =>
        match processAll st (getRemotesFromBaseCommit st base)
            (st.commitsAfter base) hs0 with
        | (cs, .error e) => (cs, .error e)
        | (cs, .ok hs) => (cs, .ok (some (getRemotesFromBaseCommit st base, hs)))

/-- The whole rip `main`, with its trace of side effects: object writes
happen during processing; branch refs are created only afterwards. -/
def ripRunT (repo : RipRepo) (pfx : String) :
    List Action × Except String RipResult :=
  match ripCore repo.store with
  | (cs, .error e) => (cs.map (fun p => .writeCommit p.2), .error e)
  | (_, .ok none) => ([], .ok ⟨true, [], []⟩)
  | (cs, .ok (some (remotes, hs))) =>
    match publishBranches pfx hs repo.branches remotes with
    | (bs, some e) =>
      (cs.map (fun p => .writeCommit p.2) ++ bs.map (fun b => .newBranch b.1 b.2),
        .error e)
    | (bs, none) =>
      (cs.map (fun p => .writeCommit p.2) ++ bs.map (fun b => .newBranch b.1 b.2),
        .ok ⟨false, cs, bs⟩)

theorem grepMatch_iff (msg : String) :
    grepMatch msg = true ↔ marker.data <:+: msg.data :=
  hasSub_iff _ _

/-- Counterexample for C4: a log whose only commit has the message
`undo git-stitch merge`.  The message neither equals the marker nor starts
with it, so under the claim the locator should fail; the code's
`git log --grep` substring match returns this commit. -/
theorem base_locator_cx :
    findBaseMergeCommit
        [⟨"h1", "undo git-stitch merge", "u", "u@x", 1, "u", "u@x", 1⟩] = .ok "h1" ∧
    ("undo git-stitch merge" : String) ≠ marker ∧
    hasPre marker.data ("undo git-stitch merge" : String).data = false := by
  refine ⟨by decide, by decide, by decide⟩

/-- Claim C4, amended: the locator returns the most recent commit of the current
branch's log whose message *contains* the reserved marker as a substring
(the `--grep` semantics; exact-match and prefix messages are particular
cases), and partitioning fails with the fatal `no merge commit found` error
exactly when no commit's message contains the marker. -/
theorem base_locator_spec (log : List CommitInfo) :
    (findBaseMergeCommit log = .error "no merge commit found with marker message" ↔
      ∀ ci ∈ log, ¬ marker.data <:+: ci.message.data) ∧
    (∀ h, findBaseMergeCommit log = .ok h →
      ∃ pre ci post, log = pre ++ ci :: post ∧ ci.hash = h ∧
        marker.data <:+: ci.message.data ∧
        ∀ cj ∈ pre, ¬ marker.data <:+: cj.message.data) := by
  constructor
  · constructor
    · intro h ci hm
      cases hf : log.find? (fun ci => grepMatch ci.message) with
      | some c =>
        unfold findBaseMergeCommit at h
        rw [hf] at h
        cases h
      | none =>
        intro hinf
        have := List.find?_eq_none.mp hf ci hm
        exact this ((grepMatch_iff ci.message).mpr hinf)
    · intro hall
      have hf : log.find? (fun ci => grepMatch ci.message) = none :=
        List.find?_eq_none.mpr fun ci hm hg =>
          (hall ci hm) ((grepMatch_iff ci.message).mp hg)
      unfold findBaseMergeCommit
      rw [hf]
  · induction log with
    | nil =>
      intro h hok
      unfold findBaseMergeCommit at hok
      simp [List.find?] at hok
    | cons ci rest ih =>
      intro h hok
      by_cases hg : grepMatch ci.message = true
      · have hf : (ci :: rest).find? (fun c => grepMatch c.message) = some ci :=
          List.find?_cons_of_pos _ hg
        unfold findBaseMergeCommit at hok
        rw [hf] at hok
        cases hok
        exact ⟨[], ci, rest, rfl, rfl, (grepMatch_iff ci.message).mp hg, by simp⟩
      · have hf : (ci :: rest).find? (fun c => grepMatch c.message) =
            rest.find? (fun c => grepMatch c.message) :=
          List.find?_cons_of_neg _ (by simpa using hg)
        unfold findBaseMergeCommit at hok
        rw [hf] at hok
        obtain ⟨pre, c, post, heq, hh, hinf, hpre⟩ := ih h hok
        refine ⟨ci :: pre, c, post, by rw [heq]; rfl, hh, hinf, ?_⟩
        intro cj hcj
        rcases List.mem_cons.mp hcj with rfl | hcj
        · exact fun hinf' => hg ((grepMatch_iff cj.message).mpr hinf')
        · exact hpre cj hcj

/-- The two-commit log used by the C4 witness. -/
def wLogC4 : List CommitInfo :=
  [⟨"top", "work", "u", "u@x", 2, "u", "u@x", 2⟩,
   ⟨"h0", "git-stitch merge", "s", "s@x", 1, "s", "s@x", 1⟩]

/-- Witness for the amended C4 at a two-commit log: the commit whose
message contains the marker is found, skipping the more recent
non-matching commit. -/
theorem base_locator_spec_witness :
    (findBaseMergeCommit wLogC4 = .ok "h0") ∧
    (∃ (pre : List CommitInfo) (ci : CommitInfo) (post : List CommitInfo),
      wLogC4 = pre ++ ci :: post ∧ ci.hash = "h0" ∧
      marker.data <:+: ci.message.data ∧
      ∀ cj ∈ pre, ¬ marker.data <:+: cj.message.data) :=
  ⟨by decide, (base_locator_spec wLogC4).2 "h0" (by decide)⟩

/-- Store used by the C3 counterexample and witness: base commit `base` has
recorded parents `[pa, pb]` and two component directories `x`, `y`; history
was rewritten, so neither parent's root tree (`ra`, `rb`) equals any
component subtree (`tx`, `ty`). -/
def wStC3 : RipStore where
  headLog := []
  commitsAfter := fun _ => []
  topTree := fun b =>
    if b = "base" then
      [⟨"040000", "tree", "tx", "x"⟩, ⟨"040000", "tree", "ty", "y"⟩]
    else []
  parentsOf := fun b => if b = "base" then ["pa", "pb"] else []
  subtreeOf := fun b r =>
    if b = "base" ∧ r = "x" then some "tx"
    else if b = "base" ∧ r = "y" then some "ty"
    else none
  rootTreeOf := fun p => if p = "pa" then "ra" else if p = "pb" then "rb" else "r0"
  changedFiles := fun _ => []
  blobAt := fun _ _ => none
  indexOf := fun _ => []

/-- Counterexample for C3: with no content match, the component `y` — index 1
among the components `[x, y]` — is assigned the parent at index 0 (`pa`),
not the parent at index 1 (`pb`) that positional assignment would give. -/
theorem head_resolver_positional_cx :
    getRemotesFromBaseCommit wStC3 "base" = ["x", "y"] ∧
    wStC3.parentsOf "base" = ["pa", "pb"] ∧
    (∀ p ∈ wStC3.parentsOf "base", ∀ r ∈ getRemotesFromBaseCommit wStC3 "base",
      wStC3.subtreeOf "base" r ≠ some (wStC3.rootTreeOf p)) ∧
    getOriginalCommitForRemote wStC3 "base" "y" = .ok "pa" ∧
    ("pa" : String) ≠ "pb" := by
  refine ⟨by decide, by decide, by decide, by decide, by decide⟩

theorem findMatchingParent_eq_none (st : RipStore) (base remote : String) :
    ∀ l : List String,
      (∀ q ∈ l, st.subtreeOf base remote ≠ some (st.rootTreeOf q)) →
      findMatchingParent st base remote l = none
  | [], _ => rfl
  | q :: rest, h => by
    have hrec := findMatchingParent_eq_none st base remote rest
      (fun q' hq' => h q' (List.mem_cons_of_mem _ hq'))
    cases hs : st.subtreeOf base remote with
    | none => simp [findMatchingParent, hs, hrec]
    | some rt =>
      have hne : st.rootTreeOf q ≠ rt := fun he =>
        h q (List.mem_cons_self _ _) (by rw [hs, he])
      simp [findMatchingParent, hs, hne, hrec]

/-- Claim C3, amended: when no parent's root tree hash equals the component's
subtree hash, every component falls back to the base commit's *first*
recorded parent, irrespective of the component's index. -/
theorem head_resolver_fallback_first (st : RipStore) (base remote p : String)
    (ps : List String) (hp : st.parentsOf base = p :: ps)
    (hnone : ∀ q ∈ p :: ps, st.subtreeOf base remote ≠ some (st.rootTreeOf q)) :
    getOriginalCommitForRemote st base remote = .ok p := by
  have hn := findMatchingParent_eq_none st base remote (p :: ps) hnone
  simp [getOriginalCommitForRemote, hp, hn]

/-- Witness for the amended C3: hypotheses hold at the concrete rewritten
store, and component `y` resolves to the first parent `pa`. -/
theorem head_resolver_fallback_first_witness :
    (wStC3.parentsOf "base" = "pa" :: ["pb"] ∧
     (∀ q ∈ ("pa" :: ["pb"] : List String),
        wStC3.subtreeOf "base" "y" ≠ some (wStC3.rootTreeOf q))) ∧
    getOriginalCommitForRemote wStC3 "base" "y" = .ok "pa" :=
  ⟨⟨by decide, by decide⟩,
   head_resolver_fallback_first wStC3 "base" "y" "pa" ["pb"] (by decide) (by decide)⟩

theorem changesFor_cons_nosep (ch : FileChange) (changes : List FileChange)
    (h : splitN2 '/' ch.path = none) (r : String) :
    changesFor (ch :: changes) r = changesFor changes r := by
  simp [changesFor, h]

theorem processRemotes_congr_changes (st : RipStore) (ci : CommitInfo)
    (changes changes' : List FileChange)
    (h : ∀ r, changesFor changes r = changesFor changes' r) :
    ∀ remotes hs, processRemotes st ci changes remotes hs =
      processRemotes st ci changes' remotes hs := by
  intro remotes
  induction remotes with
  | nil => intro hs; rfl
  | cons r rest ih =>
    intro hs
    simp only [processRemotes, h r]
    by_cases hc : changesFor changes' r = []
    · simp only [if_pos hc]
      exact ih hs
    · simp only [if_neg hc]
      rcases hmk : mkChain st ci r (changesFor changes' r) (getHead hs r) with ⟨cs, res⟩
      cases res with
      | error e => rfl
      | ok hnew =>
        simp only
        rw [ih (updateA hs r hnew)]

/-- Claim C10.  The partitioner's component set is exactly the set of names of
top-level `tree`-type entries of the base commit's tree, sorted
lexicographically; a top-level `blob` entry never yields a component; and a
file change whose path has no `/` separator is attributed to no component —
prepending such a change to a composite commit's change list leaves the
entire per-commit processing (created commits and resulting heads)
unchanged, so it produces a commit on no branch. -/
theorem components_from_tree_and_attribution (st : RipStore) (base : String) :
    (∀ r, r ∈ getRemotesFromBaseCommit st base ↔
       ∃ e ∈ st.topTree base, e.etype = "tree" ∧ e.name = r) ∧
    List.Sorted strLe (getRemotesFromBaseCommit st base) ∧
    (∀ (ci : CommitInfo) (ch : FileChange) (changes : List FileChange)
       (remotes : List String) (hs : Heads), splitN2 '/' ch.path = none →
       processRemotes st ci (ch :: changes) remotes hs =
         processRemotes st ci changes remotes hs) := by
  refine ⟨?_, ?_, ?_⟩
  · intro r
    simp only [getRemotesFromBaseCommit, sortStrings, List.mem_insertionSort,
      List.mem_map, List.mem_filter, beq_iff_eq]
    constructor
    · rintro ⟨e, ⟨he, ht⟩, hn⟩
      exact ⟨e, he, ht, hn⟩
    · rintro ⟨e, he, ht, hn⟩
      exact ⟨e, ⟨he, ht⟩, hn⟩
  · exact List.sorted_insertionSort strLe _
  · intro ci ch changes remotes hs h
    exact processRemotes_congr_changes st ci (ch :: changes) changes
      (changesFor_cons_nosep ch changes h) remotes hs

/-- A commit metadata value used by concrete witnesses. -/
def wCi1 : CommitInfo := ⟨"c1", "add two files", "an", "ae", 5, "cn", "ce", 6⟩

/-- Witness for C10: at the concrete store, component names are the two
tree entries (sorted), and a separator-free path such as `toplevel.txt`
leaves processing unchanged. -/
theorem components_from_tree_witness :
    (splitN2 '/' "toplevel.txt" = none) ∧
    (("x" : String) ∈ getRemotesFromBaseCommit wStC3 "base" ↔
      ∃ e ∈ wStC3.topTree "base", e.etype = "tree" ∧ e.name = "x") ∧
    processRemotes wStC3 wCi1 [⟨"toplevel.txt", "A"⟩] ["x", "y"] [] =
      processRemotes wStC3 wCi1 [] ["x", "y"] [] :=
  ⟨by decide,
   (components_from_tree_and_attribution wStC3 "base").1 "x",
   (components_from_tree_and_attribution wStC3 "base").2.2 wCi1
     ⟨"toplevel.txt", "A"⟩ [] ["x", "y"] [] (by decide)⟩

theorem mkSingle_ok (st : RipStore) (ci : CommitInfo) (remote : String)
    (ch : FileChange) (parent c : GCommit)
    (h : mkSingle st ci remote ch parent = .ok c) :
    c.depth = parent.depth + 1 ∧ c.msg? = some ci.message ∧
    c.aname? = some ci.authorName ∧ c.amail? = some ci.authorEmail ∧
    c.atime? = some ci.authorTimestamp := by
  unfold mkSingle at h
  cases happ : applyChange st ci.hash remote (treeOfCommit st parent) ch with
  | error e => rw [happ] at h; cases h
  | ok t =>
    rw [happ] at h
    cases h
    exact ⟨rfl, rfl, rfl, rfl, rfl⟩

theorem mkChain_spec (st : RipStore) (ci : CommitInfo) (remote : String) :
    ∀ (fcs : List FileChange) (parent : GCommit) (cs : List GCommit) (c : GCommit),
      mkChain st ci remote fcs parent = (cs, .ok c) →
      cs.length = fcs.length ∧ c.depth = parent.depth + fcs.length := by
  intro fcs
  induction fcs with
  | nil =>
    intro parent cs c h
    simp only [mkChain, Prod.mk.injEq] at h
    obtain ⟨h1, h2⟩ := h
    cases h2
    simp [← h1]
  | cons ch rest ih =>
    intro parent cs c h
    simp only [mkChain] at h
    cases hsingle : mkSingle st ci remote ch parent with
    | error e =>
      rw [hsingle] at h
      have h' : (([] : List GCommit), (Except.error e : Except String GCommit)) =
          (cs, Except.ok c) := h
      simp only [Prod.mk.injEq] at h'
      cases h'.2
    | ok c1 =>
      rw [hsingle] at h
      have h' : (c1 :: (mkChain st ci remote rest c1).1,
          (mkChain st ci remote rest c1).2) = (cs, Except.ok c) := h
      rcases hrest : mkChain st ci remote rest c1 with ⟨cs', res⟩
      rw [hrest] at h'
      simp only [Prod.mk.injEq] at h'
      obtain ⟨h1, h2⟩ := h'
      obtain ⟨hl, hd⟩ := ih c1 cs' c (by rw [hrest, h2])
      obtain ⟨hd1, _⟩ := mkSingle_ok st ci remote ch parent c1 hsingle
      constructor
      · rw [← h1]
        simp [hl]
      · rw [hd, hd1]
        simp only [List.length_cons]
        omega

theorem processRemotes_untouched (st : RipStore) (ci : CommitInfo)
    (changes : List FileChange) :
    ∀ (remotes : List String) (hs : Heads) (cs : List GCommit) (hs' : Heads),
      processRemotes st ci changes remotes hs = (cs, .ok hs') →
      ∀ k, k ∉ remotes → getHead hs' k = getHead hs k := by
  intro remotes
  induction remotes with
  | nil =>
    intro hs cs hs' h k _
    simp only [processRemotes, Prod.mk.injEq] at h
    obtain ⟨_, h2⟩ := h
    cases h2
    rfl
  | cons r rest ih =>
    intro hs cs hs' h k hk
    have hkr : k ≠ r := fun he => hk (he ▸ List.mem_cons_self _ _)
    have hkrest : k ∉ rest := fun he => hk (List.mem_cons_of_mem _ he)
    simp only [processRemotes] at h
    by_cases hc : changesFor changes r = []
    · rw [if_pos hc] at h
      exact ih hs cs hs' h k hkrest
    · rw [if_neg hc] at h
      rcases hmk : mkChain st ci r (changesFor changes r) (getHead hs r) with ⟨cs1, res⟩
      rw [hmk] at h
      cases res with
      | error e =>
        have h' : ((cs1 : List GCommit), (Except.error e : Except String Heads)) =
            (cs, Except.ok hs') := h
        simp only [Prod.mk.injEq] at h'
        cases h'.2
      | ok hnew =>
        have h' : (cs1 ++ (processRemotes st ci changes rest (updateA hs r hnew)).1,
            (processRemotes st ci changes rest (updateA hs r hnew)).2) =
            (cs, Except.ok hs') := h
        rcases hrest : processRemotes st ci changes rest (updateA hs r hnew)
          with ⟨cs2, res2⟩
        rw [hrest] at h'
        simp only [Prod.mk.injEq] at h'
        obtain ⟨_, h2⟩ := h'
        cases res2 with
        | error e => cases h2
        | ok hs2 =>
          cases h2
          have := ih (updateA hs r hnew) cs2 hs' hrest k hkrest
          rw [this]
          unfold getHead
          rw [lookupA_updateA, if_neg (fun he => hkr he.symm)]

/-- Claim C1, amended.  For one composite commit, each component with `k ≥ 1`
attributed file changes receives exactly `k` new commits (the per-file
sequential replay creates one commit per change), and that component's
head advances by exactly `k` steps — by exactly one only when exactly one
change is attributed; components with no attributed change keep their
heads, and the total number of commits created for the composite commit is
the sum of the per-component attributed change counts. -/
theorem rip_commits_per_attributed_change (st : RipStore) (ci : CommitInfo)
    (changes : List FileChange) :
    ∀ (remotes : List String) (hs : Heads) (cs : List GCommit) (hs' : Heads),
      remotes.Nodup →
      processRemotes st ci changes remotes hs = (cs, .ok hs') →
      cs.length = (remotes.map fun r => (changesFor changes r).length).sum ∧
      ∀ r ∈ remotes, (getHead hs' r).depth =
        (getHead hs r).depth + (changesFor changes r).length := by
  intro remotes
  induction remotes with
  | nil =>
    intro hs cs hs' _ h
    simp only [processRemotes, Prod.mk.injEq] at h
    obtain ⟨h1, h2⟩ := h
    cases h2
    simp [← h1]
  | cons r rest ih =>
    intro hs cs hs' hnd h
    simp only [List.nodup_cons] at hnd
    simp only [processRemotes] at h
    by_cases hc : changesFor changes r = []
    · rw [if_pos hc] at h
      obtain ⟨hl, hh⟩ := ih hs cs hs' hnd.2 h
      constructor
      · simp [hl, hc]
      · intro r' hr'
        rcases List.mem_cons.mp hr' with rfl | hr'
        · rw [processRemotes_untouched st ci changes rest hs cs hs' h r' hnd.1, hc]
          simp
        · exact hh r' hr'
    · rw [if_neg hc] at h
      rcases hmk : mkChain st ci r (changesFor changes r) (getHead hs r) with ⟨cs1, res⟩
      rw [hmk] at h
      cases res with
      | error e =>
        have h' : ((cs1 : List GCommit), (Except.error e : Except String Heads)) =
            (cs, Except.ok hs') := h
        simp only [Prod.mk.injEq] at h'
        cases h'.2
      | ok hnew =>
        have h' : (cs1 ++ (processRemotes st ci changes rest (updateA hs r hnew)).1,
            (processRemotes st ci changes rest (updateA hs r hnew)).2) =
            (cs, Except.ok hs') := h
        rcases hrest : processRemotes st ci changes rest (updateA hs r hnew)
          with ⟨cs2, res2⟩
        rw [hrest] at h'
        simp only [Prod.mk.injEq] at h'
        obtain ⟨h1, h2⟩ := h'
        cases res2 with
        | error e => cases h2
        | ok hs2 =>
          cases h2
          obtain ⟨hlen1, hdep1⟩ :=
            mkChain_spec st ci r (changesFor changes r) (getHead hs r) cs1 hnew hmk
          obtain ⟨hl2, hh2⟩ := ih (updateA hs r hnew) cs2 hs' hnd.2 hrest
          constructor
          · rw [← h1]
            simp [hlen1, hl2]
          · intro r' hr'
            rcases List.mem_cons.mp hr' with heq | hr'
            · subst heq
              have hu := processRemotes_untouched st ci changes rest
                (updateA hs r' hnew) cs2 hs' hrest r' hnd.1
              rw [hu]
              have hg : getHead (updateA hs r' hnew) r' = hnew := by
                unfold getHead
                rw [lookupA_updateA, if_pos rfl]
                rfl
              rw [hg, hdep1]
            · rw [hh2 r' hr']
              have hne : r ≠ r' := fun he => hnd.1 (he ▸ hr')
              have hg : getHead (updateA hs r hnew) r' = getHead hs r' := by
                unfold getHead
                rw [lookupA_updateA, if_neg hne]
              rw [hg]

/-- Concrete store used by the rip counterexamples and witnesses: the base
commit `base` (marker message) has one component `a` with original head
`pa`, and one composite commit `c1` after it that adds the two files
`a/f1` and `a/f2`. -/
def wStC1 : RipStore where
  headLog :=
    [⟨"c1", "add two files", "an", "ae", 5, "cn", "ce", 6⟩,
     ⟨"base", "git-stitch merge", "git-stitch", "git-stitch@localhost", 4,
      "git-stitch", "git-stitch@localhost", 4⟩]
  commitsAfter := fun b =>
    if b = "base" then [⟨"c1", "add two files", "an", "ae", 5, "cn", "ce", 6⟩]
    else []
  topTree := fun b =>
    if b = "base" then [⟨"040000", "tree", "ta", "a"⟩] else []
  parentsOf := fun b => if b = "base" then ["pa"] else []
  subtreeOf := fun b r => if b = "base" ∧ r = "a" then some "ta" else none
  rootTreeOf := fun p => if p = "pa" then "ta" else "r0"
  changedFiles := fun c =>
    if c = "c1" then [⟨"a/f1", "A"⟩, ⟨"a/f2", "A"⟩] else []
  blobAt := fun c p =>
    if c = "c1" ∧ p = "a/f1" then some ("100644", "b1")
    else if c = "c1" ∧ p = "a/f2" then some ("100644", "b2")
    else none
  indexOf := fun h => if h = "pa" then [("f0", "100644", "b0")] else []

/-- Counterexample for C1: the composite commit `c1` is the only commit after
the base and touches the single component `a` with two attributed file
changes; the run creates **two** commits on `a`'s branch for this one
composite commit, and the branch head sits two steps above the original
head — not the exactly-one commit and one-step advance the claim states. -/
theorem rip_two_commits_for_one_composite_cx :
    (wStC1.commitsAfter "base").length = 1 ∧
    getRemotesFromBaseCommit wStC1 "base" = ["a"] ∧
    (changesFor (wStC1.changedFiles "c1") "a").length = 2 ∧
    ((ripRunT ⟨wStC1, []⟩ "out").2.map fun res =>
      (res.noCommits, res.created.length, res.branches.map fun b => b.2.depth)) =
      .ok (false, 2, [2]) := by
  refine ⟨by decide, by decide, by decide, by decide⟩

/-- The first commit the run creates on `a`'s branch at the witness store. -/
def wG1 : GCommit :=
  .made [("f0", "100644", "b0"), ("f1", "100644", "b1")] (.orig "pa")
    "add two files" "an" "ae" 5 "cn" "ce" 6

/-- The second commit, chained on the first. -/
def wG2 : GCommit :=
  .made [("f0", "100644", "b0"), ("f1", "100644", "b1"), ("f2", "100644", "b2")]
    wG1 "add two files" "an" "ae" 5 "cn" "ce" 6

/-- Witness for the amended C1: at the concrete store, the two attributed
changes produce exactly two chained commits and a two-step head advance. -/
theorem rip_commits_per_attributed_change_witness :
    ((["a"] : List String).Nodup ∧
     processRemotes wStC1 wCi1 [⟨"a/f1", "A"⟩, ⟨"a/f2", "A"⟩] ["a"]
       [("a", .orig "pa")] = ([wG1, wG2], .ok [("a", wG2)])) ∧
    ([wG1, wG2].length =
      ((["a"] : List String).map fun r =>
        (changesFor [⟨"a/f1", "A"⟩, ⟨"a/f2", "A"⟩] r).length).sum ∧
     ∀ r ∈ (["a"] : List String), (getHead [("a", wG2)] r).depth =
       (getHead [("a", GCommit.orig "pa")] r).depth +
         (changesFor [⟨"a/f1", "A"⟩, ⟨"a/f2", "A"⟩] r).length) :=
  ⟨⟨by decide, by decide⟩,
   rip_commits_per_attributed_change wStC1 wCi1 [⟨"a/f1", "A"⟩, ⟨"a/f2", "A"⟩]
     ["a"] [("a", .orig "pa")] [wG1, wG2] [("a", wG2)] (by decide) (by decide)⟩

theorem mkChain_created_fields (st : RipStore) (ci : CommitInfo) (remote : String) :
    ∀ (fcs : List FileChange) (parent : GCommit),
      ∀ c ∈ (mkChain st ci remote fcs parent).1,
      c.msg? = some ci.message ∧ c.aname? = some ci.authorName ∧
      c.amail? = some ci.authorEmail ∧ c.atime? = some ci.authorTimestamp := by
  intro fcs
  induction fcs with
  | nil => intro parent c hc; simp [mkChain] at hc
  | cons ch rest ih =>
    intro parent c hc
    simp only [mkChain] at hc
    cases hsingle : mkSingle st ci remote ch parent with
    | error e =>
      rw [hsingle] at hc
      simp at hc
    | ok c1 =>
      rw [hsingle] at hc
      have hc' : c ∈ c1 :: (mkChain st ci remote rest c1).1 := hc
      rcases List.mem_cons.mp hc' with rfl | hc''
      · obtain ⟨_, hf⟩ := mkSingle_ok st ci remote ch parent c hsingle
        exact hf
      · exact ih c1 c hc''

theorem processRemotes_created_fields (st : RipStore) (ci : CommitInfo)
    (changes : List FileChange) :
    ∀ (remotes : List String) (hs : Heads),
      ∀ c ∈ (processRemotes st ci changes remotes hs).1,
      c.msg? = some ci.message ∧ c.aname? = some ci.authorName ∧
      c.amail? = some ci.authorEmail ∧ c.atime? = some ci.authorTimestamp := by
  intro remotes
  induction remotes with
  | nil => intro hs c hc; simp [processRemotes] at hc
  | cons r rest ih =>
    intro hs c hc
    simp only [processRemotes] at hc
    by_cases hcc : changesFor changes r = []
    · rw [if_pos hcc] at hc
      exact ih hs c hc
    · rw [if_neg hcc] at hc
      rcases hmk : mkChain st ci r (changesFor changes r) (getHead hs r) with ⟨cs1, res⟩
      rw [hmk] at hc
      cases res with
      | error e =>
        have hc' : c ∈ cs1 := hc
        have := mkChain_created_fields st ci r (changesFor changes r) (getHead hs r) c
          (by rw [hmk]; exact hc')
        exact this
      | ok hnew =>
        have hc' : c ∈ cs1 ++
            (processRemotes st ci changes rest (updateA hs r hnew)).1 := hc
        rcases List.mem_append.mp hc' with hl | hr
        · exact mkChain_created_fields st ci r (changesFor changes r) (getHead hs r) c
            (by rw [hmk]; exact hl)
        · exact ih (updateA hs r hnew) c hr

theorem processAll_created_fields (st : RipStore) (remotes : List String) :
    ∀ (commits : List CommitInfo) (hs : Heads),
      ∀ p ∈ (processAll st remotes commits hs).1,
      p.2.msg? = some p.1.message ∧ p.2.aname? = some p.1.authorName ∧
      p.2.amail? = some p.1.authorEmail ∧ p.2.atime? = some p.1.authorTimestamp := by
  intro commits
  induction commits with
  | nil => intro hs p hp; simp [processAll] at hp
  | cons ci rest ih =>
    intro hs p hp
    simp only [processAll] at hp
    rcases hpr : processRemotes st ci (st.changedFiles ci.hash) remotes hs with ⟨cs, res⟩
    rw [hpr] at hp
    cases res with
    | error e =>
      have hp' : p ∈ cs.map (fun c => (ci, c)) := hp
      obtain ⟨c, hcm, rfl⟩ := List.mem_map.mp hp'
      exact processRemotes_created_fields st ci (st.changedFiles ci.hash) remotes hs c
        (by rw [hpr]; exact hcm)
    | ok hs' =>
      have hp' : p ∈ cs.map (fun c => (ci, c)) ++
          (processAll st remotes rest hs').1 := hp
      rcases List.mem_append.mp hp' with hl | hr
      · obtain ⟨c, hcm, rfl⟩ := List.mem_map.mp hl
        exact processRemotes_created_fields st ci (st.changedFiles ci.hash) remotes hs c
          (by rw [hpr]; exact hcm)
      · exact ih hs' p hr

theorem ripCore_created_fields (st : RipStore) :
    ∀ p ∈ (ripCore st).1, p.2.msg? = some p.1.message ∧
      p.2.aname? = some p.1.authorName ∧ p.2.amail? = some p.1.authorEmail ∧
      p.2.atime? = some p.1.authorTimestamp := by
  intro p hp
  unfold ripCore at hp
  split at hp
  · simp at hp
  · rename_i base hb
    split at hp
    · simp at hp
    · split at hp
      · simp at hp
      · rename_i hs0 hinit
        split at hp
        · rename_i cs e hpa
          exact processAll_created_fields st (getRemotesFromBaseCommit st base)
            (st.commitsAfter base) hs0 p (by rw [hpa]; exact hp)
        · rename_i cs hs hpa
          exact processAll_created_fields st (getRemotesFromBaseCommit st base)
            (st.commitsAfter base) hs0 p (by rw [hpa]; exact hp)

/-- Claim C8.  Every commit a successful partitioning run creates carries the
same (trimmed) commit message as the composite commit it was derived from,
together with that composite commit's original author name, author email
and author timestamp. -/
theorem rip_preserves_message_and_author (repo : RipRepo) (pfx : String)
    (tr : List Action) (res : RipResult)
    (h : ripRunT repo pfx = (tr, .ok res)) :
    ∀ p ∈ res.created, p.2.msg? = some p.1.message ∧
      p.2.aname? = some p.1.authorName ∧ p.2.amail? = some p.1.authorEmail ∧
      p.2.atime? = some p.1.authorTimestamp := by
  intro p hp
  unfold ripRunT at h
  rcases hc : ripCore repo.store with ⟨cs, resc⟩
  rw [hc] at h
  cases resc with
  | error e =>
    have h' : (cs.map (fun p => Action.writeCommit p.2),
        (Except.error e : Except String RipResult)) = (tr, .ok res) := h
    simp only [Prod.mk.injEq] at h'
    cases h'.2
  | ok o =>
    cases o with
    | none =>
      have h' : (([] : List Action), Except.ok (⟨true, [], []⟩ : RipResult)) =
          (tr, .ok res) := h
      simp only [Prod.mk.injEq] at h'
      obtain ⟨-, h2⟩ := h'
      cases h2
      simp at hp
    | some pr =>
      obtain ⟨remotes, hs⟩ := pr
      rcases hpb : publishBranches pfx hs repo.branches remotes with ⟨bs, err⟩
      have h' : (match publishBranches pfx hs repo.branches remotes with
          | (bs, some e) =>
            (cs.map (fun p => Action.writeCommit p.2) ++
              bs.map (fun b => Action.newBranch b.1 b.2), Except.error e)
          | (bs, none) =>
            (cs.map (fun p => Action.writeCommit p.2) ++
              bs.map (fun b => Action.newBranch b.1 b.2),
              Except.ok (⟨false, cs, bs⟩ : RipResult))) = (tr, .ok res) := h
      rw [hpb] at h'
      cases err with
      | some e =>
        simp only [Prod.mk.injEq] at h'
        cases h'.2
      | none =>
        simp only [Prod.mk.injEq] at h'
        obtain ⟨-, h2⟩ := h'
        cases h2
        have hp' : p ∈ cs := hp
        exact ripCore_created_fields repo.store p (by rw [hc]; exact hp')

/-- Witness for C8: at the concrete store the run succeeds, its created
commits are `wG1`, `wG2`, both derived from the composite commit `wCi1`,
and the theorem applies. -/
theorem rip_preserves_message_and_author_witness :
    (ripRunT ⟨wStC1, []⟩ "p1" =
      ([.writeCommit wG1, .writeCommit wG2, .newBranch "p1-a" wG2],
       .ok ⟨false, [(wCi1, wG1), (wCi1, wG2)], [("p1-a", wG2)]⟩)) ∧
    (∀ p ∈ [(wCi1, wG1), (wCi1, wG2)], p.2.msg? = some p.1.message ∧
      p.2.aname? = some p.1.authorName ∧ p.2.amail? = some p.1.authorEmail ∧
      p.2.atime? = some p.1.authorTimestamp) :=
  ⟨by decide,
   rip_preserves_message_and_author ⟨wStC1, []⟩ "p1"
     [.writeCommit wG1, .writeCommit wG2, .newBranch "p1-a" wG2]
     ⟨false, [(wCi1, wG1), (wCi1, wG2)], [("p1-a", wG2)]⟩ (by decide)⟩

theorem ripCore_cases (st : RipStore) :
    ∀ cs out, ripCore st = (cs, .ok out) →
      (out = none ∧ cs = [] ∧ ∃ base, findBaseMergeCommit st.headLog = .ok base ∧
        st.commitsAfter base = []) ∨
      (∃ base hs0 hs, findBaseMergeCommit st.headLog = .ok base ∧
        st.commitsAfter base ≠ [] ∧
        initHeads st base (getRemotesFromBaseCommit st base) [] = .ok hs0 ∧
        processAll st (getRemotesFromBaseCommit st base) (st.commitsAfter base) hs0 =
          (cs, .ok hs) ∧
        out = some (getRemotesFromBaseCommit st base, hs)) := by
  intro cs out h
  unfold ripCore at h
  split at h
  · simp at h
  · rename_i base hb
    split at h
    · rename_i hemp
      left
      simp only [Prod.mk.injEq] at h
      obtain ⟨h1, h2⟩ := h
      cases h2
      exact ⟨rfl, h1.symm, base, hb, hemp⟩
    · rename_i hemp
      split at h
      · simp at h
      · rename_i hs0 hinit
        split at h
        · simp at h
        · rename_i cs' hs hpa
          right
          simp only [Prod.mk.injEq] at h
          obtain ⟨h1, h2⟩ := h
          cases h2
          exact ⟨base, hs0, hs, hb, hemp, hinit, by rw [hpa, h1], rfl⟩

/-- Claim C6.  (1) When change resolution fails while processing the composite
commits, the whole run aborts with that error and its effect trace contains
no branch creation — no branch ref is created or updated for any
component.  (2) Whenever a run succeeds, either it stopped at "no commits
to process", or its branches were derived from a processing pass that
completed without error over every composite commit — branch refs are
published only after every component's full chain is built. -/
theorem rip_failure_publishes_no_branch (repo : RipRepo) (pfx : String) :
    (∀ base hs0 e, findBaseMergeCommit repo.store.headLog = .ok base →
      repo.store.commitsAfter base ≠ [] →
      initHeads repo.store base (getRemotesFromBaseCommit repo.store base) [] = .ok hs0 →
      (processAll repo.store (getRemotesFromBaseCommit repo.store base)
        (repo.store.commitsAfter base) hs0).2 = .error e →
      ∃ tr, ripRunT repo pfx = (tr, .error e) ∧
        ∀ a ∈ tr, ∀ n hd, a ≠ Action.newBranch n hd) ∧
    (∀ tr res, ripRunT repo pfx = (tr, .ok res) →
      res.noCommits = true ∨
      ∃ base hs0 hs, findBaseMergeCommit repo.store.headLog = .ok base ∧
        initHeads repo.store base (getRemotesFromBaseCommit repo.store base) [] = .ok hs0 ∧
        processAll repo.store (getRemotesFromBaseCommit repo.store base)
          (repo.store.commitsAfter base) hs0 = (res.created, .ok hs)) := by
  constructor
  · intro base hs0 e hbase hne hinit hfail
    rcases hpa : processAll repo.store (getRemotesFromBaseCommit repo.store base)
        (repo.store.commitsAfter base) hs0 with ⟨cs, res⟩
    rw [hpa] at hfail
    have hres : res = .error e := hfail
    subst hres
    have hcore : ripCore repo.store = (cs, .error e) := by
      unfold ripCore
      rw [hbase]
      simp only [if_neg hne, hinit, hpa]
    refine ⟨cs.map (fun p => Action.writeCommit p.2), ?_, ?_⟩
    · unfold ripRunT
      rw [hcore]
    · intro a ha n hd
      obtain ⟨q, _, rfl⟩ := List.mem_map.mp ha
      intro hcontra
      cases hcontra
  · intro tr res h
    unfold ripRunT at h
    rcases hc : ripCore repo.store with ⟨cs, resc⟩
    rw [hc] at h
    cases resc with
    | error e =>
      have h' : (cs.map (fun p => Action.writeCommit p.2),
          (Except.error e : Except String RipResult)) = (tr, .ok res) := h
      simp only [Prod.mk.injEq] at h'
      cases h'.2
    | ok o =>
      cases o with
      | none =>
        have h' : (([] : List Action), Except.ok (⟨true, [], []⟩ : RipResult)) =
            (tr, .ok res) := h
        simp only [Prod.mk.injEq] at h'
        obtain ⟨-, h2⟩ := h'
        cases h2
        exact Or.inl rfl
      | some pr =>
        obtain ⟨remotes, hs⟩ := pr
        rcases hpb : publishBranches pfx hs repo.branches remotes with ⟨bs, err⟩
        have h' : (match publishBranches pfx hs repo.branches remotes with
            | (bs, some e) =>
              (cs.map (fun p => Action.writeCommit p.2) ++
                bs.map (fun b => Action.newBranch b.1 b.2), Except.error e)
            | (bs, none) =>
              (cs.map (fun p => Action.writeCommit p.2) ++
                bs.map (fun b => Action.newBranch b.1 b.2),
                Except.ok (⟨false, cs, bs⟩ : RipResult))) = (tr, .ok res) := h
        rw [hpb] at h'
        cases err with
        | some e =>
          simp only [Prod.mk.injEq] at h'
          cases h'.2
        | none =>
          simp only [Prod.mk.injEq] at h'
          obtain ⟨-, h2⟩ := h'
          cases h2
          rcases ripCore_cases repo.store cs (some (remotes, hs)) hc with
            ⟨hnone, -⟩ | ⟨base, hs0, hsf, hb, hne, hinit, hpa, hout⟩
          · cases hnone
          · right
            exact ⟨base, hs0, hsf, hb, hinit, hpa⟩

/-- The failing store for the C6 witness: like `wStC1` but the blob of
`a/f2` cannot be resolved, so processing the composite commit `c1` fails on
its second change. -/
def wStC6 : RipStore :=
  { wStC1 with blobAt := fun c p =>
      if c = "c1" ∧ p = "a/f1" then some ("100644", "b1") else none }

/-- Witness for C6: at the failing store the hypotheses hold concretely and
the run aborts with the change-resolution error, its trace free of branch
creations. -/
theorem rip_failure_publishes_no_branch_witness :
    (findBaseMergeCommit wStC6.headLog = .ok "base" ∧
     wStC6.commitsAfter "base" ≠ [] ∧
     initHeads wStC6 "base" (getRemotesFromBaseCommit wStC6 "base") [] =
       .ok [("a", .orig "pa")] ∧
     (processAll wStC6 (getRemotesFromBaseCommit wStC6 "base")
       (wStC6.commitsAfter "base") [("a", .orig "pa")]).2 =
       .error "failed to get blob hash for a/f2") ∧
    (∃ tr, ripRunT ⟨wStC6, []⟩ "w6" =
        (tr, .error "failed to get blob hash for a/f2") ∧
      ∀ a ∈ tr, ∀ n hd, a ≠ Action.newBranch n hd) :=
  ⟨⟨by decide, by decide, by decide, by decide⟩,
   (rip_failure_publishes_no_branch ⟨wStC6, []⟩ "w6").1 "base" [("a", .orig "pa")]
     "failed to get blob hash for a/f2" (by decide) (by decide) (by decide) (by decide)⟩

theorem publishBranches_ok_heads (pfx : String) (hs : Heads) :
    ∀ (remotes existing : List String) (bs : List (String × GCommit)),
      publishBranches pfx hs existing remotes = (bs, none) →
      bs.map Prod.snd = remotes.map (getHead hs) := by
  intro remotes
  induction remotes with
  | nil =>
    intro ex bs h
    simp only [publishBranches, Prod.mk.injEq] at h
    rw [← h.1]
    rfl
  | cons r rest ih =>
    intro ex bs h
    simp only [publishBranches] at h
    by_cases hm : (pfx ++ "-" ++ r) ∈ ex
    · rw [if_pos hm] at h
      simp only [Prod.mk.injEq] at h
      cases h.2
    · rw [if_neg hm] at h
      have h' : ((pfx ++ "-" ++ r, getHead hs r) ::
          (publishBranches pfx hs ((pfx ++ "-" ++ r) :: ex) rest).1,
          (publishBranches pfx hs ((pfx ++ "-" ++ r) :: ex) rest).2) = (bs, none) := h
      rcases hp : publishBranches pfx hs ((pfx ++ "-" ++ r) :: ex) rest with ⟨bs', err⟩
      rw [hp] at h'
      simp only [Prod.mk.injEq] at h'
      obtain ⟨h1, h2⟩ := h'
      cases err with
      | some e => cases h2
      | none =>
        rw [← h1]
        simp only [List.map_cons, List.map]
        rw [ih ((pfx ++ "-" ++ r) :: ex) bs' hp]

/-- Claim C7, amended.  A second partitioning run on the same repository state
(the first run only adds branch refs and content-addressed objects, which
none of the reads consult), with any prefix, re-processes the same
composite commits: it creates commit objects *identical* to the first
run's (so the object store gains nothing new) and its branch heads carry
the same hashes as the first run's, only under new names.  It reports "no
commits to process" only when no composite commits exist after the base —
not merely because a prior run succeeded. -/
theorem rip_rerun_deterministic (st : RipStore) (br₁ br₂ : List String)
    (pfx₁ pfx₂ : String) (tr₁ tr₂ : List Action) (r₁ r₂ : RipResult)
    (h₁ : ripRunT ⟨st, br₁⟩ pfx₁ = (tr₁, .ok r₁))
    (h₂ : ripRunT ⟨st, br₂⟩ pfx₂ = (tr₂, .ok r₂)) :
    r₂.created = r₁.created ∧
    r₂.branches.map Prod.snd = r₁.branches.map Prod.snd ∧
    r₂.noCommits = r₁.noCommits ∧
    (r₁.noCommits = true ↔ ∃ base, findBaseMergeCommit st.headLog = .ok base ∧
      st.commitsAfter base = []) := by
  unfold ripRunT at h₁ h₂
  rcases hc : ripCore st with ⟨cs, resc⟩
  rw [hc] at h₁ h₂
  cases resc with
  | error e =>
    have h' : (cs.map (fun p => Action.writeCommit p.2),
        (Except.error e : Except String RipResult)) = (tr₁, .ok r₁) := h₁
    simp only [Prod.mk.injEq] at h'
    cases h'.2
  | ok o =>
    cases o with
    | none =>
      have h₁' : (([] : List Action), Except.ok (⟨true, [], []⟩ : RipResult)) =
          (tr₁, .ok r₁) := h₁
      have h₂' : (([] : List Action), Except.ok (⟨true, [], []⟩ : RipResult)) =
          (tr₂, .ok r₂) := h₂
      simp only [Prod.mk.injEq] at h₁' h₂'
      obtain ⟨-, hr₁⟩ := h₁'
      obtain ⟨-, hr₂⟩ := h₂'
      cases hr₁
      cases hr₂
      refine ⟨rfl, rfl, rfl, ?_⟩
      rcases ripCore_cases st cs none hc with ⟨-, -, base, hb, hemp⟩ | ⟨_, _, _, _, _, _, _, hout⟩
      · exact ⟨fun _ => ⟨base, hb, hemp⟩, fun _ => rfl⟩
      · cases hout
    | some pr =>
      obtain ⟨remotes, hs⟩ := pr
      rcases hpb₁ : publishBranches pfx₁ hs br₁ remotes with ⟨bs₁, err₁⟩
      rcases hpb₂ : publishBranches pfx₂ hs br₂ remotes with ⟨bs₂, err₂⟩
      have h₁' : (match publishBranches pfx₁ hs br₁ remotes with
          | (bs, some e) =>
            (cs.map (fun p => Action.writeCommit p.2) ++
              bs.map (fun b => Action.newBranch b.1 b.2), Except.error e)
          | (bs, none) =>
            (cs.map (fun p => Action.writeCommit p.2) ++
              bs.map (fun b => Action.newBranch b.1 b.2),
              Except.ok (⟨false, cs, bs⟩ : RipResult))) = (tr₁, .ok r₁) := h₁
      have h₂' : (match publishBranches pfx₂ hs br₂ remotes with
          | (bs, some e) =>
            (cs.map (fun p => Action.writeCommit p.2) ++
              bs.map (fun b => Action.newBranch b.1 b.2), Except.error e)
          | (bs, none) =>
            (cs.map (fun p => Action.writeCommit p.2) ++
              bs.map (fun b => Action.newBranch b.1 b.2),
              Except.ok (⟨false, cs, bs⟩ : RipResult))) = (tr₂, .ok r₂) := h₂
      rw [hpb₁] at h₁'
      rw [hpb₂] at h₂'
      cases err₁ with
      | some e =>
        simp only [Prod.mk.injEq] at h₁'
        cases h₁'.2
      | none =>
        cases err₂ with
        | some e =>
          simp only [Prod.mk.injEq] at h₂'
          cases h₂'.2
        | none =>
          simp only [Prod.mk.injEq] at h₁' h₂'
          obtain ⟨-, hr₁⟩ := h₁'
          obtain ⟨-, hr₂⟩ := h₂'
          cases hr₁
          cases hr₂
          refine ⟨rfl, ?_, rfl, ?_⟩
          · rw [publishBranches_ok_heads pfx₂ hs remotes br₂ bs₂ hpb₂,
              publishBranches_ok_heads pfx₁ hs remotes br₁ bs₁ hpb₁]
          · constructor
            · intro hfalse
              cases hfalse
            · rintro ⟨base, hb, hemp⟩
              rcases ripCore_cases st cs (some (remotes, hs)) hc with
                ⟨hnone, -⟩ | ⟨base', _, _, hb', hne', -, -, -⟩
              · cases hnone
              · rw [hb] at hb'
                cases hb'
                exact absurd hemp hne'

/-- Counterexample for C7: after a successful first run (prefix `p1`, creating
branch `p1-a`), a second run on the unchanged readable state with a fresh
prefix does **not** report "no commits to process": it re-walks the same
composite commit — `noCommits` is `false` and two commits are (re)created —
although, the replay being deterministic, the commit objects coincide with
the first run's, as the third conjunct shows. -/
theorem rip_rerun_cx :
    ((ripRunT ⟨wStC1, []⟩ "p1").2.map fun r =>
      (r.noCommits, r.created.length, r.branches.map Prod.fst)) =
      .ok (false, 2, ["p1-a"]) ∧
    ((ripRunT ⟨wStC1, ["p1-a"]⟩ "p2").2.map fun r =>
      (r.noCommits, r.created.length, r.branches.map Prod.fst)) =
      .ok (false, 2, ["p2-a"]) ∧
    (ripRunT ⟨wStC1, ["p1-a"]⟩ "p2").2.map RipResult.created =
      (ripRunT ⟨wStC1, []⟩ "p1").2.map RipResult.created := by
  refine ⟨by decide, by decide, by decide⟩

/-- First-run trace at the witness store. -/
def wTr1 : List Action :=
  [.writeCommit wG1, .writeCommit wG2, .newBranch "p1-a" wG2]

/-- Second-run trace at the witness store (fresh prefix). -/
def wTr2 : List Action :=
  [.writeCommit wG1, .writeCommit wG2, .newBranch "p2-a" wG2]

/-- First-run result at the witness store. -/
def wRes1 : RipResult :=
  ⟨false, [(wCi1, wG1), (wCi1, wG2)], [("p1-a", wG2)]⟩

/-- Second-run result at the witness store. -/
def wRes2 : RipResult :=
  ⟨false, [(wCi1, wG1), (wCi1, wG2)], [("p2-a", wG2)]⟩

/-- Witness for the amended C7 at the concrete store: both runs succeed and
the theorem's conclusions hold for them. -/
theorem rip_rerun_deterministic_witness :
    (ripRunT ⟨wStC1, []⟩ "p1" = (wTr1, .ok wRes1) ∧
     ripRunT ⟨wStC1, ["p1-a"]⟩ "p2" = (wTr2, .ok wRes2)) ∧
    (wRes2.created = wRes1.created ∧
     wRes2.branches.map Prod.snd = wRes1.branches.map Prod.snd ∧
     wRes2.noCommits = wRes1.noCommits ∧
     (wRes1.noCommits = true ↔ ∃ base, findBaseMergeCommit wStC1.headLog = .ok base ∧
        wStC1.commitsAfter base = [])) :=
  ⟨⟨by decide, by decide⟩,
   rip_rerun_deterministic wStC1 [] ["p1-a"] "p1" "p2" wTr1 wTr2 wRes1 wRes2
     (by decide) (by decide)⟩

end GitMono
